import Mathlib

set_option maxHeartbeats 1000000

/-! Shallow embedding of the markdown to ADF converter (markdownToAdf with its
helpers flushBulletList and parseInlineContent) and of the ADF plain-text
extractor (extractTextFromAdf with its inner extractNode), translated from
packages/atlassian-cli/src/jira.ts, together with proofs of the specification
claims about them.  JavaScript strings are modeled as Lean strings (lists of
characters), JavaScript values reaching the extractor as the inductive type Jv,
and the mutable loop state of markdownToAdf as the structure MdState folded
over the split lines. -/

/-- The backtick character, written by code point. -/
def backtick : Char := Char.ofNat 96

/-- Whitespace recognized by the JavaScript trim primitive: ASCII white space
plus no-break space and BOM.  Rarer Unicode space separators are not modeled. -/
def isJsWs (c : Char) : Bool :=
  c = ' ' || c = '\t' || c = '\n' || c = '\r' || c = '\x0b' || c = '\x0c' ||
  c = ' ' || c = '﻿'

/-- Model of JavaScript String.prototype.trim. -/
def jsTrim (s : String) : String :=
  String.mk (((s.data.dropWhile isJsWs).reverse.dropWhile isJsWs).reverse)

/-- Auxiliary loop of splitLines, carrying the line accumulated so far. -/
def splitLinesAux : List Char → List Char → List String
  | [], acc => [String.mk acc]
  | c :: cs, acc =>
    if c = '\n' then String.mk acc :: splitLinesAux cs []
    else splitLinesAux cs (acc ++ [c])

/-- Model of the JavaScript call markdown.split with a newline separator. -/
def splitLines (s : String) : List String := splitLinesAux s.data []

/-- Model of JavaScript Array.prototype.join with a newline separator. -/
def jsJoinNl : List String → String
  | [] => ""
  | [s] => s
  | s :: s2 :: rest => s ++ "\n" ++ jsJoinNl (s2 :: rest)

/-- Model of JavaScript Array.prototype.join with the empty separator. -/
def jsConcat : List String → String
  | [] => ""
  | s :: rest => s ++ jsConcat rest

/-- Character-list prefix test backing jsStartsWith. -/
def leadsWith : List Char → List Char → Bool
  | [], _ => true
  | _ :: _, [] => false
  | p :: ps, c :: cs => p = c && leadsWith ps cs

/-- Model of JavaScript String.prototype.startsWith. -/
def jsStartsWith (s p : String) : Bool := leadsWith p.data s.data

/-- Model of JavaScript String.prototype.slice from a character index. -/
def jsSlice (s : String) (n : Nat) : String := String.mk (s.data.drop n)

/-- JavaScript regexp line terminators: the dot of a regexp never matches
these characters. -/
def isLineTerm (c : Char) : Bool :=
  c = '\n' || c = '\r' || c.val = 0x2028 || c.val = 0x2029

/-- Attribute record carried by ADF nodes: heading level, code block language,
link href. -/
structure Attrs where
  level : Option Nat := none
  language : Option String := none
  href : Option String := none
deriving DecidableEq, Repr

/-- A JavaScript value as consumed and produced by the converter and the
extractor: null (also standing for undefined, which the code treats the same
way), a primitive, or an object with the fields the code reads. -/
inductive Jv where
  | jnull
  | jbool (b : Bool)
  | jnum (n : Int)
  | jstr (s : String)
  | jobj (type : Option String) (version : Option Nat) (attrs : Option Attrs)
      (text : Option String) (marks : Option (List Jv)) (content : Option (List Jv))

/-- An unmarked text node. -/
def textNode (t : String) : Jv := .jobj (some "text") none none (some t) none none

/-- The inline code mark object. -/
def codeMark : Jv := .jobj (some "code") none none none none none

/-- The strong (bold) mark object. -/
def strongMark : Jv := .jobj (some "strong") none none none none none

/-- The link mark object carrying an href attribute. -/
def linkMark (href : String) : Jv :=
  .jobj (some "link") none (some { href := some href }) none none none

/-- A text node carrying a single mark. -/
def markedTextNode (t : String) (m : Jv) : Jv :=
  .jobj (some "text") none none (some t) (some [m]) none

/-- A paragraph node. -/
def paragraphNode (c : List Jv) : Jv := .jobj (some "paragraph") none none none none (some c)

/-- A heading node with its level attribute. -/
def headingNode (lvl : Nat) (c : List Jv) : Jv :=
  .jobj (some "heading") none (some { level := some lvl }) none none (some c)

/-- A code block node: language attribute and a single literal text child. -/
def codeBlockNode (lang payload : String) : Jv :=
  .jobj (some "codeBlock") none (some { language := some lang }) none none
    (some [textNode payload])

/-- A list item node. -/
def listItemNode (c : List Jv) : Jv := .jobj (some "listItem") none none none none (some c)

/-- A bullet list node. -/
def bulletListNode (items : List Jv) : Jv :=
  .jobj (some "bulletList") none none none none (some items)

/-- The document root node, with version 1. -/
def docNode (c : List Jv) : Jv := .jobj (some "doc") (some 1) none none none (some c)

/-- The inline code regexp of parseInlineContent: a backtick, one or more
non-backticks, a closing backtick, anchored at the start.  Returns the code
text and the remaining input on a match. -/
def matchCode : List Char → Option (List Char × List Char)
  | c :: cs =>
    if c = backtick then
      let inner := cs.takeWhile (fun x => x ≠ backtick)
      if inner ≠ [] ∧ inner.length < cs.length then
        some (inner, cs.drop (inner.length + 1))
      else none
    else none
  | [] => none

/-- The bold regexp of parseInlineContent: two asterisks, one or more
non-asterisks, two closing asterisks, anchored at the start. -/
def matchBold : List Char → Option (List Char × List Char)
  | a :: b :: cs =>
    if a = '*' ∧ b = '*' then
      let inner := cs.takeWhile (fun x => x ≠ '*')
      if inner ≠ [] ∧ leadsWith ['*', '*'] (cs.drop inner.length) then
        some (inner, cs.drop (inner.length + 2))
      else none
    else none
  | _ => none

/-- The link regexp of parseInlineContent: a bracketed non-empty label followed
by a parenthesized non-empty href, anchored at the start.  Returns label, href
and the remaining input. -/
def matchLink : List Char → Option (List Char × List Char × List Char)
  | c :: cs =>
    if c = '[' then
      let label := cs.takeWhile (fun x => x ≠ ']')
      if label ≠ [] ∧ label.length < cs.length then
        match cs.drop (label.length + 1) with
        | d :: cs2 =>
          if d = '(' then
            let href := cs2.takeWhile (fun x => x ≠ ')')
            if href ≠ [] ∧ href.length < cs2.length then
              some (label, href, cs2.drop (href.length + 1))
            else none
          else none
        | [] => none
      else none
    else none
  | [] => none

/-- One iteration of the parseInlineContent loop on a non-empty remainder:
try inline code, then bold, then link, then a longest plain run free of the
three trigger characters, else consume a single character.  Returns the text
node pushed and the new remainder. -/
def inlineStep (cs : List Char) : Jv × List Char :=
  match matchCode cs with
  | some (inner, rest) => (markedTextNode (String.mk inner) codeMark, rest)
  | none =>
    match matchBold cs with
    | some (inner, rest) => (markedTextNode (String.mk inner) strongMark, rest)
    | none =>
      match matchLink cs with
      | some (label, href, rest) =>
        (markedTextNode (String.mk label) (linkMark (String.mk href)), rest)
      | none =>
        let run := cs.takeWhile (fun x => x ≠ backtick ∧ x ≠ '*' ∧ x ≠ '[')
        if run ≠ [] then (textNode (String.mk run), cs.drop run.length)
        else (textNode (String.mk (cs.take 1)), cs.drop 1)

/-- The scanning loop of parseInlineContent, with the remaining length as
structural fuel: every iteration consumes at least one character, so the
initial length bounds the number of iterations and the zero-fuel case is
unreachable from parseInline. -/
def parseInlineLoop : Nat → List Char → List Jv
  | _, [] => []
  | 0, _ :: _ => []
  | fuel + 1, c :: cs =>
    (inlineStep (c :: cs)).1 :: parseInlineLoop fuel (inlineStep (c :: cs)).2

/-- The scanning loop of parseInlineContent: repeat inlineStep until the
remainder is exhausted. -/
def parseInline (cs : List Char) : List Jv := parseInlineLoop cs.length cs

/-- Parse inline markdown content (code, bold, links) into a list of text
nodes; an empty result is replaced by a single space text node. -/
def parseInlineContent (text : String) : List Jv :=
  let result := parseInline text.data
  if result.length > 0 then result else [textNode " "]

/-- The mutable state of the markdownToAdf loop. -/
structure MdState where
  content : List Jv
  inCodeBlock : Bool
  codeBlockContent : List String
  codeBlockLang : String
  currentBulletList : Option (List Jv)

/-- The flushBulletList closure of markdownToAdf: when a non-empty bullet list
is pending, append it to the document content and clear the accumulator. -/
def flushBulletList (s : MdState) : MdState :=
  match s.currentBulletList with
  | some l =>
    if l.length > 0 then
      { s with content := s.content ++ [bulletListNode l], currentBulletList := none }
    else s
  | none => s

/-- The three heading regexps of markdownToAdf, tried for levels 1, 2, 3: a
run of hashes, a space, then one or more non-line-terminator characters up to
the end of the line.  Returns the level and the raw remainder. -/
def headingMatch (line : String) : Option (Nat × String) :=
  if jsStartsWith line "# " ∧ (jsSlice line 2).data ≠ [] ∧
      (jsSlice line 2).data.all (fun c => ¬ isLineTerm c) then
    some (1, jsSlice line 2)
  else if jsStartsWith line "## " ∧ (jsSlice line 3).data ≠ [] ∧
      (jsSlice line 3).data.all (fun c => ¬ isLineTerm c) then
    some (2, jsSlice line 3)
  else if jsStartsWith line "### " ∧ (jsSlice line 4).data ≠ [] ∧
      (jsSlice line 4).data.all (fun c => ¬ isLineTerm c) then
    some (3, jsSlice line 4)
  else none

/-- The bullet item regexp of markdownToAdf: a dash or asterisk, a space, then
one or more non-line-terminator characters up to the end of the line. -/
def bulletMatch (line : String) : Option String :=
  if (jsStartsWith line "- " ∨ jsStartsWith line "* ") ∧ (jsSlice line 2).data ≠ [] ∧
      (jsSlice line 2).data.all (fun c => ¬ isLineTerm c) then
    some (jsSlice line 2)
  else none

/-- The body of the per-line loop of markdownToAdf: fence toggling, verbatim
accumulation inside a fence, blank-line flush, headings, bullet items, and the
plain paragraph fallback, in the source's order. -/
def processLine (s : MdState) (line : String) : MdState :=
  if jsStartsWith line "```" then
    let s1 := flushBulletList s
    if s1.inCodeBlock then
      { s1 with
        content := s1.content ++
          [codeBlockNode (if s1.codeBlockLang = "" then "text" else s1.codeBlockLang)
            (jsJoinNl s1.codeBlockContent)],
        codeBlockContent := [], codeBlockLang := "", inCodeBlock := false }
    else
      { s1 with inCodeBlock := true, codeBlockLang := jsTrim (jsSlice line 3) }
  else if s.inCodeBlock then
    { s with codeBlockContent := s.codeBlockContent ++ [line] }
  else if jsTrim line = "" then
    flushBulletList s
  else
    match headingMatch line with
    | some (lvl, rest) =>
      let s1 := flushBulletList s
      { s1 with content := s1.content ++ [headingNode lvl [textNode rest]] }
    | none =>
      match bulletMatch line with
      | some rest =>
        let items := (s.currentBulletList.getD []) ++
          [listItemNode [paragraphNode (parseInlineContent rest)]]
        { s with currentBulletList := some items }
      | none =>
        let s1 := flushBulletList s
        { s1 with content := s1.content ++ [paragraphNode (parseInlineContent line)] }

/-- The initial loop state of markdownToAdf. -/
def mdInit : MdState :=
  { content := [], inCodeBlock := false, codeBlockContent := [],
    codeBlockLang := "", currentBulletList := none }

/-- The epilogue of markdownToAdf: flush any remaining bullet list and wrap the
content in the document root. -/
def mdFinish (s : MdState) : Jv := docNode (flushBulletList s).content

/-- Convert markdown to ADF: split on newlines and fold the per-line loop. -/
def markdownToAdf (markdown : String) : Jv :=
  mdFinish ((splitLines markdown).foldl processLine mdInit)

/-- Result of a call to extractTextFromAdf in JavaScript: a thrown TypeError,
the undefined value, or a string. -/
inductive ExtractResult where
  | thrown
  | undefinedResult
  | str (s : String)
deriving DecidableEq, Repr

/-- Whether an extraction result is a string. -/
def ExtractResult.isStr : ExtractResult → Bool
  | .str _ => true
  | _ => false

mutual

/-- The recursive extractNode closure of extractTextFromAdf: guard against
non-objects, return truthy text of text nodes, render bullet lists, list
items, paragraphs and headings from their children, fall back to child
concatenation for any other node with content, else the empty string. -/
def extractNode : Jv → String
  | .jnull => ""
  | .jbool _ => ""
  | .jnum _ => ""
  | .jstr _ => ""
  | .jobj ty _ _ tx _ ct =>
    if ty = some "text" ∧ tx.getD "" ≠ "" then tx.getD ""
    else
      match ct with
      | none => ""
      | some l =>
        if ty = some "bulletList" then
          jsJoinNl ((extractList l).map (fun t => "- " ++ t)) ++ "\n"
        else if ty = some "listItem" then jsTrim (jsConcat (extractList l))
        else if ty = some "paragraph" then jsConcat (extractList l)
        else if ty = some "heading" then jsConcat (extractList l)
        else jsConcat (extractList l)

/-- Map extractNode over a list of child values. -/
def extractList : List Jv → List String
  | [] => []
  | x :: xs => extractNode x :: extractList xs

end

/-- The value of the property access n.type on a JavaScript value: none models
a TypeError on a nullish receiver, otherwise the type field of an object or
undefined for a primitive. -/
def typeAccess : Jv → Option (Option String)
  | .jnull => none
  | .jobj ty _ _ _ _ _ => some ty
  | _ => some none

/-- The top-level map of extractTextFromAdf over the document content: extract
each block and append a newline after paragraphs and headings.  Returns none
when the map throws, which happens on a nullish element (its type property is
read after extraction). -/
def renderTop : List Jv → Option (List String)
  | [] => some []
  | node :: rest =>
    let text := extractNode node
    match typeAccess node with
    | none => none
    | some ty =>
      let piece :=
        if ty = some "paragraph" ∨ ty = some "heading" then text ++ "\n"
        else if ty = some "bulletList" then text
        else text
      match renderTop rest with
      | none => none
      | some ps => some (piece :: ps)

/-- Extract plain text from ADF content: undefined unless the argument is an
object carrying a content field, else the blocks rendered in order, joined and
trimmed. -/
def extractTextFromAdf (adf : Jv) : ExtractResult :=
  match adf with
  | .jobj _ _ _ _ _ ct =>
    match ct with
    | none => .undefinedResult
    | some l =>
      match renderTop l with
      | none => .thrown
      | some pieces => .str (jsTrim (jsConcat pieces))
  | _ => .undefinedResult

/-- Fence-line parity of a list of lines: true when it holds an odd number of
lines that start a fence. -/
def fenceParity : List String → Bool
  | [] => false
  | l :: t => if jsStartsWith l "```" = true then !(fenceParity t) else fenceParity t

/-- The content field of a JavaScript value: the content list of an object
that has one, else none. -/
def contentField : Jv → Option (List Jv)
  | .jobj _ _ _ _ _ ct => ct
  | _ => none

/-- Whether a JavaScript value is not nullish. -/
def notNull : Jv → Bool
  | .jnull => false
  | _ => true

/-- Whether a list of JavaScript values has no nullish element. -/
def nullFreeList (l : List Jv) : Bool := l.all notNull

/-- A line treated as a plain paragraph by the converter, carrying none of the
inline trigger characters: non-blank, not a fence opener, not a heading, not a
bullet item, and free of backtick, asterisk and open bracket. -/
def plainParagraphLine (l : String) : Prop :=
  jsTrim l ≠ "" ∧ jsStartsWith l "```" = false ∧ headingMatch l = none ∧
    bulletMatch l = none ∧ ∀ c ∈ l.data, c ≠ backtick ∧ c ≠ '*' ∧ c ≠ '['

instance plainParagraphLineDec (l : String) : Decidable (plainParagraphLine l) := by
  unfold plainParagraphLine
  exact inferInstance

/-- Whether the converter keeps a line as a paragraph rather than dropping it
as blank. -/
def nonBlankLine (l : String) : Bool := !(jsTrim l == "")

/-- The whitespace normalization the specification describes for the plain
paragraph round trip: drop blank lines, give every remaining paragraph line
one trailing newline, concatenate, and trim the result on both ends. -/
def specNormalize (md : String) : String :=
  jsTrim (jsConcat (((splitLines md).filter nonBlankLine).map (fun l => l ++ "\n")))

/-- The type tag of a JavaScript value: the type field of an object, none for
anything else. -/
def jvType : Jv → Option String
  | .jobj ty _ _ _ _ _ => ty
  | _ => none

mutual

/-- All nodes of an ADF value: the value itself followed by the nodes of its
content children and of its marks. -/
def jvNodes : Jv → List Jv
  | .jnull => [.jnull]
  | .jbool b => [.jbool b]
  | .jnum n => [.jnum n]
  | .jstr s => [.jstr s]
  | .jobj ty ver a tx mk ct =>
    .jobj ty ver a tx mk ct ::
      ((match ct with | some l => jvNodesList l | none => []) ++
        (match mk with | some l => jvNodesList l | none => []))

/-- All nodes of a list of ADF values. -/
def jvNodesList : List Jv → List Jv
  | [] => []
  | x :: xs => jvNodes x ++ jvNodesList xs

end

/-- A value all of whose bullet list nodes carry a non-empty list of list
items. -/
def deepGood (n : Jv) : Prop :=
  ∀ m ∈ jvNodes n, jvType m = some "bulletList" →
    ∃ items, contentField m = some items ∧ items ≠ [] ∧
      ∀ i ∈ items, jvType i = some "listItem"

/-- The loop invariant behind the bullet list claims: every node already in
the document content is deep-good, and every pending bullet item is a
deep-good list item. -/
def invGood (s : MdState) : Prop :=
  (∀ n ∈ s.content, deepGood n) ∧
    (∀ l, s.currentBulletList = some l →
      ∀ n ∈ l, deepGood n ∧ jvType n = some "listItem")

/-- Spec-side inline code match, following claim C6's words: a backtick, one
or more non-backticks, a closing backtick; the delimiters are consumed and not
included in the emitted code-marked text node. -/
def specCode : List Char → Option (Jv × List Char)
  | c :: cs =>
    if c = backtick then
      match cs.span (fun x => x ≠ backtick) with
      | (inner, r1) =>
        if inner = [] then none
        else
          match r1 with
          | d :: rest =>
            if d = backtick then
              some (markedTextNode (String.mk inner) codeMark, rest)
            else none
          | [] => none
    else none
  | [] => none

/-- Spec-side bold match: double asterisks around one or more non-asterisks,
emitting a strong-marked node. -/
def specBold : List Char → Option (Jv × List Char)
  | a :: b :: cs =>
    if a = '*' ∧ b = '*' then
      match cs.span (fun x => x ≠ '*') with
      | (inner, r1) =>
        if inner = [] then none
        else
          match r1 with
          | c1 :: c2 :: rest =>
            if c1 = '*' ∧ c2 = '*' then
              some (markedTextNode (String.mk inner) strongMark, rest)
            else none
          | _ => none
    else none
  | _ => none

/-- Spec-side link match: a bracketed non-empty label followed by a
parenthesized non-empty href, emitting a link-marked node. -/
def specLink : List Char → Option (Jv × List Char)
  | c :: cs =>
    if c = '[' then
      match cs.span (fun x => x ≠ ']') with
      | (label, r1) =>
        if label = [] then none
        else
          match r1 with
          | b1 :: b2 :: r2 =>
            if b1 = ']' ∧ b2 = '(' then
              match r2.span (fun x => x ≠ ')') with
              | (href, r3) =>
                if href = [] then none
                else
                  match r3 with
                  | b3 :: rest =>
                    if b3 = ')' then
                      some (markedTextNode (String.mk label)
                        (linkMark (String.mk href)), rest)
                    else none
                  | [] => none
            else none
          | _ => none
    else none
  | [] => none

/-- Spec-side plain run: the longest prefix free of backtick, asterisk and
open bracket, emitted as an unmarked text node. -/
def specPlain (cs : List Char) : Option (Jv × List Char) :=
  match cs.span (fun x => x ≠ backtick ∧ x ≠ '*' ∧ x ≠ '[') with
  | (run, rest) => if run = [] then none else some (textNode (String.mk run), rest)

/-- One step of the spec-side scanner, in claim C6's fixed priority order:
inline code, then bold, then link, then a plain run, else one character
consumed as unmarked text. -/
def specStep (cs : List Char) : Jv × List Char :=
  match specCode cs with
  | some r => r
  | none =>
    match specBold cs with
    | some r => r
    | none =>
      match specLink cs with
      | some r => r
      | none =>
        match specPlain cs with
        | some r => r
        | none => (textNode (String.mk (cs.take 1)), cs.drop 1)

/-- The spec-side scanning loop: repeat specStep with the remaining length as
fuel, exactly as claim C6 words the scan. -/
def specScanLoop : Nat → List Char → List Jv
  | _, [] => []
  | 0, _ :: _ => []
  | fuel + 1, c :: cs => (specStep (c :: cs)).1 :: specScanLoop fuel (specStep (c :: cs)).2

/-- The spec-side inline scanner of claim C6: scan left to right in the fixed
priority order, and substitute one single-space text node when the produced
sequence is empty. -/
def specInlineScan (s : String) : List Jv :=
  let r := specScanLoop s.data.length s.data
  if r.isEmpty then [textNode " "] else r

theorem matchCode_rest_lt {cs inner rest} (h : matchCode cs = some (inner, rest)) :
    rest.length < cs.length := by
  match cs with
  | [] => simp [matchCode] at h
  | c :: t =>
    simp only [matchCode] at h
    split at h
    · split at h
      · simp only [Option.some.injEq, Prod.mk.injEq] at h
        obtain ⟨-, rfl⟩ := h
        simp only [List.length_drop, List.length_cons]
        omega
      · exact absurd h (by simp)
    · exact absurd h (by simp)

theorem matchBold_rest_lt {cs inner rest} (h : matchBold cs = some (inner, rest)) :
    rest.length < cs.length := by
  match cs with
  | [] => simp [matchBold] at h
  | [a] => simp [matchBold] at h
  | a :: b :: t =>
    simp only [matchBold] at h
    split at h
    · split at h
      · simp only [Option.some.injEq, Prod.mk.injEq] at h
        obtain ⟨-, rfl⟩ := h
        simp only [List.length_drop, List.length_cons]
        omega
      · exact absurd h (by simp)
    · exact absurd h (by simp)

theorem matchLink_rest_lt {cs label href rest}
    (h : matchLink cs = some (label, href, rest)) : rest.length < cs.length := by
  match cs with
  | [] => simp [matchLink] at h
  | c :: t =>
    simp only [matchLink] at h
    split at h
    · split at h
      · split at h
        next d cs2 heq =>
          split at h
          · split at h
            · simp only [Option.some.injEq, Prod.mk.injEq] at h
              obtain ⟨-, -, rfl⟩ := h
              have hlen : cs2.length < t.length := by
                have := congrArg List.length heq
                simp only [List.length_drop, List.length_cons] at this
                omega
              simp only [List.length_drop, List.length_cons]
              omega
            · exact absurd h (by simp)
          · exact absurd h (by simp)
        next heq => exact absurd h (by simp)
      · exact absurd h (by simp)
    · exact absurd h (by simp)

theorem inlineStep_rest_lt (c : Char) (cs : List Char) :
    (inlineStep (c :: cs)).2.length < (c :: cs).length := by
  unfold inlineStep
  split
  next inner rest h => exact matchCode_rest_lt h
  next =>
    split
    next inner rest h => exact matchBold_rest_lt h
    next =>
      split
      next label href rest h => exact matchLink_rest_lt h
      next =>
        simp only []
        split
        next hrun =>
          have h1 : 1 ≤ ((c :: cs).takeWhile
              (fun x => decide (x ≠ backtick ∧ x ≠ '*' ∧ x ≠ '['))).length := by
            rcases hne : (c :: cs).takeWhile
                (fun x => decide (x ≠ backtick ∧ x ≠ '*' ∧ x ≠ '[')) with _ | ⟨y, ys⟩
            · exact absurd hne hrun
            · simp
          simp only [List.length_drop, List.length_cons]
          omega
        next =>
          simp only [List.length_drop, List.length_cons]
          omega

theorem parseInlineLoop_congr :
    ∀ f1 f2 cs, cs.length ≤ f1 → cs.length ≤ f2 →
      parseInlineLoop f1 cs = parseInlineLoop f2 cs := by
  intro f1
  induction f1 with
  | zero =>
    intro f2 cs h1 h2
    have : cs = [] := by
      cases cs with
      | nil => rfl
      | cons c t => simp at h1
    subst this
    cases f2 <;> rfl
  | succ f ih =>
    intro f2 cs h1 h2
    cases cs with
    | nil => cases f2 <;> rfl
    | cons c t =>
      cases f2 with
      | zero => simp at h2
      | succ f2 =>
        have hlt := inlineStep_rest_lt c t
        simp only [parseInlineLoop, List.cons.injEq, true_and]
        exact ih f2 _ (by simp only [List.length_cons] at h1 hlt ⊢; omega)
          (by simp only [List.length_cons] at h2 hlt ⊢; omega)

/-- Unfolding equation of parseInline on a non-empty remainder. -/
theorem parseInline_cons (c : Char) (cs : List Char) :
    parseInline (c :: cs) =
      (inlineStep (c :: cs)).1 :: parseInline ((inlineStep (c :: cs)).2) := by
  have hlt := inlineStep_rest_lt c cs
  simp only [parseInline, List.length_cons, parseInlineLoop, List.cons.injEq, true_and]
  exact parseInlineLoop_congr _ _ _ (by simp only [List.length_cons] at hlt ⊢; omega)
    (le_refl _)

theorem strAppend_empty (s : String) : s ++ "" = s :=
  String.ext (by simp [String.data_append])

theorem strMk_append (a b : List Char) : String.mk a ++ String.mk b = String.mk (a ++ b) :=
  String.ext (by simp [String.data_append])

/-- The character data of the fence prefix literal. -/
theorem fenceData : ("```" : String).data = [backtick, backtick, backtick] := rfl

theorem splitLinesAux_ne_nil : ∀ cs acc, splitLinesAux cs acc ≠ [] := by
  intro cs
  induction cs with
  | nil => intro acc; simp [splitLinesAux]
  | cons c t ih =>
    intro acc
    by_cases h : c = '\n' <;> simp [splitLinesAux, h, ih]

theorem splitLinesAux_no_nl : ∀ cs acc, (∀ c ∈ cs, c ≠ '\n') →
    splitLinesAux cs acc = [String.mk (acc ++ cs)] := by
  intro cs
  induction cs with
  | nil => intro acc _; simp [splitLinesAux]
  | cons c t ih =>
    intro acc h
    have hc : c ≠ '\n' := h c (by simp)
    simp only [splitLinesAux, if_neg hc]
    rw [ih (acc ++ [c]) (fun x hx => h x (by simp [hx]))]
    simp

/-- A string without newlines splits into the single line holding it. -/
theorem splitLines_no_nl (s : String) (h : ∀ c ∈ s.data, c ≠ '\n') :
    splitLines s = [s] := by
  unfold splitLines
  rw [splitLinesAux_no_nl s.data [] h]
  simp

theorem splitLinesAux_append : ∀ xs ys acc,
    splitLinesAux (xs ++ '\n' :: ys) acc = splitLinesAux xs acc ++ splitLinesAux ys [] := by
  intro xs
  induction xs with
  | nil => intro ys acc; simp [splitLinesAux]
  | cons x t ih =>
    intro ys acc
    by_cases h : x = '\n' <;> simp [splitLinesAux, h, ih]

/-- Splitting distributes over concatenation at an explicit newline. -/
theorem splitLines_append (a b : String) :
    splitLines (a ++ "\n" ++ b) = splitLines a ++ splitLines b := by
  unfold splitLines
  have : (a ++ "\n" ++ b).data = a.data ++ '\n' :: b.data := by
    simp [String.data_append]
  rw [this, splitLinesAux_append]

theorem jsJoinNl_cons (s : String) {rest : List String} (h : rest ≠ []) :
    jsJoinNl (s :: rest) = s ++ "\n" ++ jsJoinNl rest := by
  cases rest with
  | nil => exact absurd rfl h
  | cons y t => rfl

theorem jsJoinNl_splitLinesAux : ∀ cs acc,
    jsJoinNl (splitLinesAux cs acc) = String.mk acc ++ String.mk cs := by
  intro cs
  induction cs with
  | nil => intro acc; simp [splitLinesAux, jsJoinNl, strAppend_empty]
  | cons c t ih =>
    intro acc
    by_cases h : c = '\n'
    · subst h
      rw [show splitLinesAux ('\n' :: t) acc = String.mk acc :: splitLinesAux t [] from by
        simp [splitLinesAux]]
      rw [jsJoinNl_cons _ (splitLinesAux_ne_nil t []), ih []]
      refine String.ext ?_
      simp [String.data_append]
    · rw [show splitLinesAux (c :: t) acc = splitLinesAux t (acc ++ [c]) from by
        simp [splitLinesAux, h]]
      rw [ih (acc ++ [c])]
      refine String.ext ?_
      simp [String.data_append]

/-- Joining the split lines with newlines restores the original string. -/
theorem jsJoinNl_splitLines (s : String) : jsJoinNl (splitLines s) = s := by
  unfold splitLines
  rw [jsJoinNl_splitLinesAux]
  exact String.ext (by simp)

/-- Splitting a newline join of newline-free lines restores the lines. -/
theorem splitLines_jsJoinNl : ∀ ls : List String, ls ≠ [] →
    (∀ l ∈ ls, ∀ c ∈ String.data l, c ≠ '\n') → splitLines (jsJoinNl ls) = ls := by
  intro ls
  induction ls with
  | nil => intro h; exact absurd rfl h
  | cons x t ih =>
    intro _ h
    cases t with
    | nil =>
      show splitLines (jsJoinNl [x]) = [x]
      exact splitLines_no_nl x (h x (by simp))
    | cons y t2 =>
      rw [jsJoinNl_cons x (by simp), splitLines_append,
        splitLines_no_nl x (h x (by simp)), ih (by simp)
          (fun l hl c hc => h l (by simp [hl]) c hc)]
      rfl

/-- The trim of a string is empty exactly when all its characters are
JavaScript white space. -/
theorem jsTrim_eq_empty_iff (s : String) :
    jsTrim s = "" ↔ ∀ c ∈ s.data, isJsWs c := by
  unfold jsTrim
  constructor
  · intro h c hc
    have hdata : (((s.data.dropWhile isJsWs).reverse.dropWhile isJsWs).reverse : List Char)
        = [] := by
      have := congrArg String.data h
      simpa using this
    rw [List.reverse_eq_nil_iff, List.dropWhile_eq_nil_iff] at hdata
    rcases (List.mem_append.mp
        (by rw [List.takeWhile_append_dropWhile]; exact hc :
          c ∈ s.data.takeWhile isJsWs ++ s.data.dropWhile isJsWs)) with hm | hm
    · exact List.mem_takeWhile_imp hm
    · exact hdata c (List.mem_reverse.mpr hm)
  · intro h
    have h1 : s.data.dropWhile isJsWs = [] :=
      List.dropWhile_eq_nil_iff.mpr (fun x hx => h x hx)
    rw [h1]
    rfl

/-- A blank line, in the sense of the converter, never opens a code fence. -/
theorem blank_not_fence (line : String) (h : jsTrim line = "") :
    jsStartsWith line "```" = false := by
  have hall := (jsTrim_eq_empty_iff line).mp h
  unfold jsStartsWith
  rw [fenceData]
  cases hd : line.data with
  | nil => rfl
  | cons c t =>
    have hcw : isJsWs c = true := hall c (by rw [hd]; simp)
    have hcb : (backtick = c) = False := by
      simp only [eq_iff_iff, iff_false]
      intro hbc
      rw [← hbc] at hcw
      exact absurd hcw (by decide)
    simp [leadsWith, hcb]

theorem flushBulletList_inCodeBlock (s : MdState) :
    (flushBulletList s).inCodeBlock = s.inCodeBlock := by
  unfold flushBulletList
  cases s.currentBulletList with
  | none => rfl
  | some l => by_cases h : l.length > 0 <;> simp [h]

theorem flushBulletList_codeBlockContent (s : MdState) :
    (flushBulletList s).codeBlockContent = s.codeBlockContent := by
  unfold flushBulletList
  cases s.currentBulletList with
  | none => rfl
  | some l => by_cases h : l.length > 0 <;> simp [h]

theorem flushBulletList_codeBlockLang (s : MdState) :
    (flushBulletList s).codeBlockLang = s.codeBlockLang := by
  unfold flushBulletList
  cases s.currentBulletList with
  | none => rfl
  | some l => by_cases h : l.length > 0 <;> simp [h]

theorem flushBulletList_idem (s : MdState) :
    flushBulletList (flushBulletList s) = flushBulletList s := by
  unfold flushBulletList
  cases hc : s.currentBulletList with
  | none => simp [hc]
  | some l =>
    by_cases h : l.length > 0
    · simp [h]
    · simp [h, hc]

theorem processLine_fence_open (s : MdState) (line : String)
    (hf : jsStartsWith line "```" = true) (hc : s.inCodeBlock = false) :
    processLine s line =
      { flushBulletList s with inCodeBlock := true, codeBlockLang := jsTrim (jsSlice line 3) } := by
  unfold processLine
  rw [hf]
  simp [flushBulletList_inCodeBlock, hc]

theorem processLine_fence_close (s : MdState) (line : String)
    (hf : jsStartsWith line "```" = true) (hc : s.inCodeBlock = true) :
    processLine s line =
      { flushBulletList s with
        content := (flushBulletList s).content ++
          [codeBlockNode (if s.codeBlockLang = "" then "text" else s.codeBlockLang)
            (jsJoinNl s.codeBlockContent)],
        codeBlockContent := [], codeBlockLang := "", inCodeBlock := false } := by
  unfold processLine
  rw [hf]
  simp [flushBulletList_inCodeBlock, flushBulletList_codeBlockLang,
    flushBulletList_codeBlockContent, hc]

theorem processLine_inCode (s : MdState) (line : String)
    (hf : jsStartsWith line "```" = false) (hc : s.inCodeBlock = true) :
    processLine s line = { s with codeBlockContent := s.codeBlockContent ++ [line] } := by
  unfold processLine
  rw [hf]
  simp [hc]

theorem processLine_blank (s : MdState) (line : String)
    (hc : s.inCodeBlock = false) (hb : jsTrim line = "") :
    processLine s line = flushBulletList s := by
  unfold processLine
  rw [blank_not_fence line hb]
  simp [hc, hb]

theorem processLine_heading (s : MdState) (line : String) (lvl : Nat) (rest : String)
    (hf : jsStartsWith line "```" = false) (hc : s.inCodeBlock = false)
    (hb : ¬ jsTrim line = "") (hh : headingMatch line = some (lvl, rest)) :
    processLine s line =
      { flushBulletList s with
        content := (flushBulletList s).content ++ [headingNode lvl [textNode rest]] } := by
  unfold processLine
  rw [hf]
  simp [hc, hb, hh]

theorem processLine_bullet (s : MdState) (line : String) (rest : String)
    (hf : jsStartsWith line "```" = false) (hc : s.inCodeBlock = false)
    (hb : ¬ jsTrim line = "") (hh : headingMatch line = none)
    (hm : bulletMatch line = some rest) :
    processLine s line =
      { s with currentBulletList := some ((s.currentBulletList.getD []) ++ [listItemNode [paragraphNode (parseInlineContent rest)]]) } := by
  unfold processLine
  rw [hf]
  simp [hc, hb, hh, hm]

theorem processLine_para (s : MdState) (line : String)
    (hf : jsStartsWith line "```" = false) (hc : s.inCodeBlock = false)
    (hb : ¬ jsTrim line = "") (hh : headingMatch line = none)
    (hm : bulletMatch line = none) :
    processLine s line =
      { flushBulletList s with
        content := (flushBulletList s).content ++
          [paragraphNode (parseInlineContent line)] } := by
  unfold processLine
  rw [hf]
  simp [hc, hb, hh, hm]

theorem processLine_inCodeBlock_keep (s : MdState) (line : String)
    (hf : jsStartsWith line "```" = false) :
    (processLine s line).inCodeBlock = s.inCodeBlock := by
  by_cases hc : s.inCodeBlock = true
  · rw [processLine_inCode s line hf hc, hc]
  · simp only [Bool.not_eq_true] at hc
    by_cases hb : jsTrim line = ""
    · rw [processLine_blank s line hc hb, flushBulletList_inCodeBlock, hc]
    · cases hh : headingMatch line with
      | some p =>
        rw [processLine_heading s line p.1 p.2 hf hc hb (by rw [hh])]
        simp [flushBulletList_inCodeBlock, hc]
      | none =>
        cases hm : bulletMatch line with
        | some r => rw [processLine_bullet s line r hf hc hb hh hm, hc]
        | none =>
          rw [processLine_para s line hf hc hb hh hm]
          simp [flushBulletList_inCodeBlock, hc]

theorem processLine_inCodeBlock_toggle (s : MdState) (line : String)
    (hf : jsStartsWith line "```" = true) :
    (processLine s line).inCodeBlock = !s.inCodeBlock := by
  cases hc : s.inCodeBlock
  · rw [processLine_fence_open s line hf hc]
    rfl
  · rw [processLine_fence_close s line hf hc]
    rfl

/-- The code-fence mode after a fold is the starting mode flipped by the
fence-line parity. -/
theorem foldl_inCodeBlock : ∀ (ls : List String) (s : MdState),
    (ls.foldl processLine s).inCodeBlock = xor (fenceParity ls) s.inCodeBlock := by
  intro ls
  induction ls with
  | nil => intro s; simp [fenceParity]
  | cons l t ih =>
    intro s
    by_cases hf : jsStartsWith l "```" = true
    · simp only [List.foldl_cons, ih, fenceParity, hf, if_pos rfl]
      rw [processLine_inCodeBlock_toggle s l hf]
      cases fenceParity t <;> cases s.inCodeBlock <;> rfl
    · simp only [Bool.not_eq_true] at hf
      simp only [List.foldl_cons, ih, fenceParity, hf]
      rw [processLine_inCodeBlock_keep s l hf]
      simp

/-- While fenced-code mode is open, a fold over fence-free lines only appends
them to the pending code payload. -/
theorem foldl_inCode : ∀ (ls : List String) (s : MdState), s.inCodeBlock = true →
    (∀ l ∈ ls, jsStartsWith l "```" = false) →
    ls.foldl processLine s = { s with codeBlockContent := s.codeBlockContent ++ ls } := by
  intro ls
  induction ls with
  | nil =>
    intro s _ _
    show s = _
    cases s
    simp
  | cons l t ih =>
    intro s hc h
    rw [List.foldl_cons, processLine_inCode s l (h l (by simp)) hc,
      ih _ (by simp [hc]) (fun x hx => h x (by simp [hx]))]
    simp

theorem data_ne_nil {s : String} (h : s ≠ "") : s.data ≠ [] :=
  fun hd => h (String.ext (by rw [hd]))

theorem leadsWith_append (p r : List Char) : leadsWith p (p ++ r) = true := by
  induction p with
  | nil => rfl
  | cons c t ih => simp [leadsWith, ih]

theorem jsStartsWith_append (p r : String) : jsStartsWith (p ++ r) p = true := by
  unfold jsStartsWith
  rw [String.data_append]
  exact leadsWith_append p.data r.data

theorem leadsWith_cons_ne {p c : Char} (ps cs : List Char) (h : p ≠ c) :
    leadsWith (p :: ps) (c :: cs) = false := by
  simp [leadsWith, h]

theorem jsTrim_ne_empty {s : String} {c : Char} (hc : c ∈ s.data)
    (hw : isJsWs c = false) : ¬ jsTrim s = "" := by
  intro h
  have := (jsTrim_eq_empty_iff s).mp h c hc
  rw [hw] at this
  exact absurd this (by simp)

theorem markdownToAdf_single_line (line : String) (h : ∀ c ∈ line.data, c ≠ '\n') :
    markdownToAdf line = mdFinish (processLine mdInit line) := by
  unfold markdownToAdf
  rw [splitLines_no_nl line h]
  rfl

theorem foldl_blank : ∀ ls : List String, (∀ l ∈ ls, jsTrim l = "") →
    ls.foldl processLine mdInit = mdInit := by
  intro ls
  induction ls with
  | nil => intro _; rfl
  | cons l t ih =>
    intro h
    rw [List.foldl_cons, processLine_blank mdInit l rfl (h l (by simp)),
      show flushBulletList mdInit = mdInit from rfl]
    exact ih (fun x hx => h x (by simp [hx]))

/-- Claim C7: markdownToAdf is total with no error path.  Every input yields a
document rooted at a node of shape type doc, version 1, with a content list;
and the empty input, as well as any input all of whose lines are blank, yields
a document with an empty content list. -/
theorem c7_markdownToAdf_total (md : String) :
    (∃ c, markdownToAdf md = docNode c) ∧
      ((∀ l ∈ splitLines md, jsTrim l = "") → markdownToAdf md = docNode []) := by
  constructor
  · exact ⟨(flushBulletList ((splitLines md).foldl processLine mdInit)).content, rfl⟩
  · intro h
    unfold markdownToAdf
    rw [foldl_blank (splitLines md) h]
    rfl

/-- Witness for C7 at the empty string and at a blank-lines-only input. -/
theorem c7_markdownToAdf_total_witness :
    markdownToAdf "" = docNode [] ∧ markdownToAdf "\n \n" = docNode [] :=
  ⟨(c7_markdownToAdf_total "").2 (by decide),
   (c7_markdownToAdf_total "\n \n").2 (by decide)⟩

theorem h1Data (r : String) : ("# " ++ r).data = '#' :: ' ' :: r.data := by
  rw [String.data_append]; rfl

theorem h2Data (r : String) : ("## " ++ r).data = '#' :: '#' :: ' ' :: r.data := by
  rw [String.data_append]; rfl

theorem h3Data (r : String) : ("### " ++ r).data = '#' :: '#' :: '#' :: ' ' :: r.data := by
  rw [String.data_append]; rfl

theorem jsSlice_h1 (r : String) : jsSlice ("# " ++ r) 2 = r := by
  refine String.ext ?_
  simp [jsSlice, h1Data]

theorem jsSlice_h2 (r : String) : jsSlice ("## " ++ r) 3 = r := by
  refine String.ext ?_
  simp [jsSlice, h2Data]

theorem jsSlice_h3 (r : String) : jsSlice ("### " ++ r) 4 = r := by
  refine String.ext ?_
  simp [jsSlice, h3Data]

theorem allNotTerm {rest : String} (h : ∀ c ∈ rest.data, isLineTerm c = false) :
    rest.data.all (fun c => ¬ isLineTerm c) = true := by
  rw [List.all_eq_true]
  intro c hc
  simp [h c hc]

theorem headingMatch_h1 (rest : String) (h1 : rest ≠ "")
    (h2 : ∀ c ∈ rest.data, isLineTerm c = false) :
    headingMatch ("# " ++ rest) = some (1, rest) := by
  have hsl : jsSlice ("# " ++ rest) 2 = rest := jsSlice_h1 rest
  unfold headingMatch
  rw [if_pos ⟨jsStartsWith_append "# " rest,
    by rw [hsl]; exact data_ne_nil h1, by rw [hsl]; exact allNotTerm h2⟩, hsl]

theorem pound_space_not_lead (c2 : Char) (cs : List Char) (h : c2 ≠ ' ') :
    leadsWith ("# " : String).data ('#' :: c2 :: cs) = false := by
  have h' : ¬ (' ' = c2) := fun he => h he.symm
  simp [show ("# " : String).data = ['#', ' '] from rfl, leadsWith, h']

theorem pound2_space_not_lead (c3 : Char) (cs : List Char) (h : c3 ≠ ' ') :
    leadsWith ("## " : String).data ('#' :: '#' :: c3 :: cs) = false := by
  have h' : ¬ (' ' = c3) := fun he => h he.symm
  simp [show ("## " : String).data = ['#', '#', ' '] from rfl, leadsWith, h']

theorem headingMatch_h2 (rest : String) (h1 : rest ≠ "")
    (h2 : ∀ c ∈ rest.data, isLineTerm c = false) :
    headingMatch ("## " ++ rest) = some (2, rest) := by
  have hsl : jsSlice ("## " ++ rest) 3 = rest := jsSlice_h2 rest
  have hno1 : jsStartsWith ("## " ++ rest) "# " = false := by
    unfold jsStartsWith
    rw [h2Data]
    exact pound_space_not_lead '#' _ (by decide)
  unfold headingMatch
  rw [if_neg (fun hcond => by rw [hno1] at hcond; exact absurd hcond.1 (by simp))]
  rw [if_pos ⟨jsStartsWith_append "## " rest,
    by rw [hsl]; exact data_ne_nil h1, by rw [hsl]; exact allNotTerm h2⟩, hsl]

theorem headingMatch_h3 (rest : String) (h1 : rest ≠ "")
    (h2 : ∀ c ∈ rest.data, isLineTerm c = false) :
    headingMatch ("### " ++ rest) = some (3, rest) := by
  have hsl : jsSlice ("### " ++ rest) 4 = rest := jsSlice_h3 rest
  have hno1 : jsStartsWith ("### " ++ rest) "# " = false := by
    unfold jsStartsWith
    rw [h3Data]
    exact pound_space_not_lead '#' _ (by decide)
  have hno2 : jsStartsWith ("### " ++ rest) "## " = false := by
    unfold jsStartsWith
    rw [h3Data]
    exact pound2_space_not_lead '#' _ (by decide)
  unfold headingMatch
  rw [if_neg (fun hcond => by rw [hno1] at hcond; exact absurd hcond.1 (by simp))]
  rw [if_neg (fun hcond => by rw [hno2] at hcond; exact absurd hcond.1 (by simp))]
  rw [if_pos ⟨jsStartsWith_append "### " rest,
    by rw [hsl]; exact data_ne_nil h1, by rw [hsl]; exact allNotTerm h2⟩, hsl]

theorem newline_isLineTerm : isLineTerm '\n' = true := by decide

theorem heading_line_no_nl {pre rest : String} (hd : ∃ t, pre.data = t ∧ '\n' ∉ t)
    (h2 : ∀ c ∈ rest.data, isLineTerm c = false) : ∀ c ∈ (pre ++ rest).data, c ≠ '\n' := by
  intro c hc he
  subst he
  rw [String.data_append] at hc
  rcases List.mem_append.mp hc with hm | hm
  · obtain ⟨t, ht, hnt⟩ := hd
    rw [ht] at hm
    exact hnt hm
  · have := h2 _ hm
    rw [newline_isLineTerm] at this
    exact absurd this (by simp)

theorem fence_no_lead_pound (r : String) (c : Char) (cs : List Char)
    (hd : r.data = c :: cs) (hc : backtick ≠ c) : jsStartsWith r "```" = false := by
  unfold jsStartsWith
  rw [fenceData, hd]
  exact leadsWith_cons_ne _ _ hc

/-- Claim C2: a heading line of level 1, 2 or 3 (hashes, a space, then
non-empty content without line terminators) converts to a heading node of that
level whose content is exactly one unmarked text node holding the raw
remainder of the line, with no inline parsing applied. -/
theorem c2_heading_literal_text (rest : String) (h1 : rest ≠ "")
    (h2 : ∀ c ∈ rest.data, isLineTerm c = false) :
    markdownToAdf ("# " ++ rest) = docNode [headingNode 1 [textNode rest]] ∧
    markdownToAdf ("## " ++ rest) = docNode [headingNode 2 [textNode rest]] ∧
    markdownToAdf ("### " ++ rest) = docNode [headingNode 3 [textNode rest]] := by
  refine ⟨?_, ?_, ?_⟩
  · rw [markdownToAdf_single_line _ (heading_line_no_nl ⟨['#', ' '], rfl, by decide⟩ h2)]
    rw [processLine_heading mdInit _ 1 rest
      (fence_no_lead_pound _ '#' _ (h1Data rest) (by decide)) rfl
      (jsTrim_ne_empty (c := '#') (by rw [h1Data]; simp) (by decide))
      (headingMatch_h1 rest h1 h2)]
    rfl
  · rw [markdownToAdf_single_line _ (heading_line_no_nl ⟨['#', '#', ' '], rfl, by decide⟩ h2)]
    rw [processLine_heading mdInit _ 2 rest
      (fence_no_lead_pound _ '#' _ (h2Data rest) (by decide)) rfl
      (jsTrim_ne_empty (c := '#') (by rw [h2Data]; simp) (by decide))
      (headingMatch_h2 rest h1 h2)]
    rfl
  · rw [markdownToAdf_single_line _ (heading_line_no_nl ⟨['#', '#', '#', ' '], rfl, by decide⟩ h2)]
    rw [processLine_heading mdInit _ 3 rest
      (fence_no_lead_pound _ '#' _ (h3Data rest) (by decide)) rfl
      (jsTrim_ne_empty (c := '#') (by rw [h3Data]; simp) (by decide))
      (headingMatch_h3 rest h1 h2)]
    rfl

/-- Witness for C2: the spec's heading example and the bold-title example kept
literal with no mark. -/
theorem c2_heading_literal_text_witness :
    markdownToAdf "# Title" = docNode [headingNode 1 [textNode "Title"]] ∧
    markdownToAdf "# **Bold Title**" = docNode [headingNode 1 [textNode "**Bold Title**"]] :=
  ⟨(c2_heading_literal_text "Title" (by decide) (by decide)).1,
   (c2_heading_literal_text "**Bold Title**" (by decide) (by decide)).1⟩

theorem jsSlice_fence (lang : String) : jsSlice ("```" ++ lang) 3 = lang := by
  refine String.ext ?_
  simp [jsSlice, String.data_append, fenceData]

/-- A fenced code block with a declared language: the line content after the
fence is trimmed into the language tag (empty meaning text) and the enclosed
body, split and rejoined on newlines, is the literal payload. -/
theorem markdownToAdf_fence (lang body : String)
    (hlang : ∀ c ∈ lang.data, c ≠ '\n')
    (hbody : ∀ l ∈ splitLines body, jsStartsWith l "```" = false) :
    markdownToAdf ("```" ++ lang ++ "\n" ++ (body ++ "\n" ++ "```")) =
      docNode [codeBlockNode (if jsTrim lang = "" then "text" else jsTrim lang) body] := by
  have hfl : ∀ c ∈ ("```" ++ lang).data, c ≠ '\n' := by
    intro c hc
    rw [String.data_append, fenceData] at hc
    rcases List.mem_append.mp hc with hm | hm
    · intro he
      subst he
      revert hm
      decide
    · exact hlang c hm
  have hsplit : splitLines ("```" ++ lang ++ "\n" ++ (body ++ "\n" ++ "```")) =
      ("```" ++ lang) :: (splitLines body ++ ["```"]) := by
    rw [splitLines_append ("```" ++ lang) (body ++ "\n" ++ "```"),
      splitLines_append body "```",
      splitLines_no_nl _ hfl,
      splitLines_no_nl "```" (by decide)]
    rfl
  unfold markdownToAdf
  rw [hsplit, List.foldl_cons,
    processLine_fence_open mdInit _ (jsStartsWith_append "```" lang) rfl,
    jsSlice_fence lang]
  rw [show ({ flushBulletList mdInit with inCodeBlock := true, codeBlockLang := jsTrim lang } : MdState) = { content := [], inCodeBlock := true, codeBlockContent := [], codeBlockLang := jsTrim lang, currentBulletList := none } from rfl]
  rw [List.foldl_append, foldl_inCode (splitLines body) _ rfl hbody]
  rw [show List.foldl processLine { content := [], inCodeBlock := true, codeBlockContent := [] ++ splitLines body, codeBlockLang := jsTrim lang, currentBulletList := none } ["```"] = processLine { content := [], inCodeBlock := true, codeBlockContent := [] ++ splitLines body, codeBlockLang := jsTrim lang, currentBulletList := none } "```" from rfl]
  rw [processLine_fence_close _ "```" (by decide) rfl]
  unfold mdFinish flushBulletList
  dsimp only
  simp only [List.nil_append, jsJoinNl_splitLines body]

/-- Counterexample to claim C3 as stated: on the opening fence line with one
space before the tag, the substring after the backticks is the string
space-j-s, but the code block's language attribute is the trimmed string js,
so the language is not the exact substring captured verbatim. -/
theorem c3_language_verbatim_counterexample :
    markdownToAdf "``` js\nx\n```" = docNode [codeBlockNode "js" "x"] ∧
    jsSlice "``` js" 3 ≠ "js" :=
  ⟨rfl, by decide⟩

/-- Claim C3 as amended: the characters of the opening fence line after the
triple backticks are trimmed of surrounding white space to form the language
tag, and an empty trimmed remainder defaults to the tag text. -/
theorem c3_language_trimmed (lang : String) (hlang : ∀ c ∈ lang.data, c ≠ '\n') :
    markdownToAdf ("```" ++ lang ++ "\n" ++ ("x" ++ "\n" ++ "```")) =
      docNode [codeBlockNode (if jsTrim lang = "" then "text" else jsTrim lang) "x"] :=
  markdownToAdf_fence lang "x" hlang (by decide)

/-- Witness for the amended C3: a language tag with surrounding spaces is
trimmed, and a white-space-only tag defaults to text. -/
theorem c3_language_trimmed_witness :
    markdownToAdf ("```" ++ " py " ++ "\n" ++ ("x" ++ "\n" ++ "```")) =
      docNode [codeBlockNode "py" "x"] ∧
    markdownToAdf ("```" ++ " " ++ "\n" ++ ("x" ++ "\n" ++ "```")) =
      docNode [codeBlockNode "text" "x"] :=
  ⟨c3_language_trimmed " py " (by decide), c3_language_trimmed " " (by decide)⟩

/-- Claim C5: while a fence is open every line up to the closing fence is
buffered verbatim and the code block payload is exactly those lines joined
with newlines; no enclosed line is reinterpreted as markdown. -/
theorem c5_fence_opacity (lang body : String)
    (hlang : ∀ c ∈ lang.data, c ≠ '\n')
    (hbody : ∀ l ∈ splitLines body, jsStartsWith l "```" = false) :
    markdownToAdf ("```" ++ lang ++ "\n" ++ (body ++ "\n" ++ "```")) =
      docNode [codeBlockNode (if jsTrim lang = "" then "text" else jsTrim lang) body] :=
  markdownToAdf_fence lang body hlang hbody

/-- Witness for C5 at the spec's example: a bold-looking line inside a fence
stays a literal code payload. -/
theorem c5_fence_opacity_witness :
    markdownToAdf ("```" ++ "js" ++ "\n" ++ ("**not bold**" ++ "\n" ++ "```")) =
      docNode [codeBlockNode "js" "**not bold**"] :=
  c5_fence_opacity "js" "**not bold**" (by decide) (by decide)

theorem flush_content_congr (a b : MdState) (hc : a.content = b.content)
    (hb : a.currentBulletList = b.currentBulletList) :
    (flushBulletList a).content = (flushBulletList b).content := by
  unfold flushBulletList
  rw [hb]
  cases hcb : b.currentBulletList with
  | none => exact hc
  | some l =>
    by_cases hl : l.length > 0
    · simp only [hl, if_pos]
      rw [hc]
    · simp only [hl, if_neg]
      exact hc

/-- Claim C9: when a fence opens (with no fence already open) and never
closes, every following line is buffered but discarded: the document equals
the one converted from the lines before the fence alone. -/
theorem c9_unclosed_fence_discarded (pre rest : List String) (fence : String)
    (hnl : ∀ l ∈ pre ++ fence :: rest, ∀ c ∈ String.data l, c ≠ '\n')
    (hparity : fenceParity pre = false)
    (hfence : jsStartsWith fence "```" = true)
    (hrest : ∀ l ∈ rest, jsStartsWith l "```" = false) :
    markdownToAdf (jsJoinNl (pre ++ fence :: rest)) = markdownToAdf (jsJoinNl pre) := by
  have hs1 : (pre.foldl processLine mdInit).inCodeBlock = false := by
    rw [foldl_inCodeBlock pre mdInit, hparity]
    rfl
  have hRHS : markdownToAdf (jsJoinNl pre) =
      docNode (flushBulletList (pre.foldl processLine mdInit)).content := by
    cases pre with
    | nil => rfl
    | cons p t =>
      unfold markdownToAdf
      rw [splitLines_jsJoinNl (p :: t) (by simp)
        (fun l hl => hnl l (List.mem_append_left _ hl))]
      rfl
  rw [hRHS]
  unfold markdownToAdf
  rw [splitLines_jsJoinNl (pre ++ fence :: rest) (by simp) hnl, List.foldl_append,
    List.foldl_cons, processLine_fence_open _ fence hfence hs1,
    foldl_inCode rest _ rfl hrest]
  unfold mdFinish
  refine congrArg docNode ?_
  conv_rhs => rw [← flushBulletList_idem (pre.foldl processLine mdInit)]
  exact flush_content_congr _ _ rfl rfl

/-- Witness for C9: two lines after an unclosed fence disappear from the
output. -/
theorem c9_unclosed_fence_discarded_witness :
    markdownToAdf (jsJoinNl (["a"] ++ "```js" :: ["x", "y"])) =
      markdownToAdf (jsJoinNl ["a"]) :=
  c9_unclosed_fence_discarded ["a"] ["x", "y"] "```js" (by decide) (by decide)
    (by decide) (by decide)

/-- Claim C8: a node whose type has no specific handler contributes the
concatenation of its children's extracted text when it carries a content
list, and the empty string when it carries none, without any failure. -/
theorem c8_extract_unknown_tolerant (ty : Option String) (ver : Option Nat)
    (a : Option Attrs) (tx : Option String) (mk : Option (List Jv)) (l : List Jv)
    (h : ∀ t ∈ ["text", "bulletList", "listItem", "paragraph", "heading"], ty ≠ some t) :
    extractNode (Jv.jobj ty ver a tx mk (some l)) = jsConcat (extractList l) ∧
    extractNode (Jv.jobj ty ver a tx mk none) = "" := by
  have h1 : ty ≠ some "text" := h _ (by simp)
  have h2 : ty ≠ some "bulletList" := h _ (by simp)
  have h3 : ty ≠ some "listItem" := h _ (by simp)
  have h4 : ty ≠ some "paragraph" := h _ (by simp)
  have h5 : ty ≠ some "heading" := h _ (by simp)
  constructor
  · unfold extractNode
    simp [h1, h2, h3, h4, h5]
  · unfold extractNode
    simp [h1]

/-- Witness for C8: an unknown panel node concatenates its children, and the
same node without content extracts to the empty string. -/
theorem c8_extract_unknown_tolerant_witness :
    extractNode (Jv.jobj (some "panel") none none none none (some [textNode "x"])) =
      jsConcat (extractList [textNode "x"]) ∧
    extractNode (Jv.jobj (some "panel") none none none none none) = "" :=
  c8_extract_unknown_tolerant (some "panel") none none none none [textNode "x"] (by decide)

theorem typeAccess_of_notNull {x : Jv} (h : notNull x = true) :
    ∃ ty, typeAccess x = some ty := by
  cases x with
  | jnull => simp [notNull] at h
  | jbool b => exact ⟨none, rfl⟩
  | jnum n => exact ⟨none, rfl⟩
  | jstr s => exact ⟨none, rfl⟩
  | jobj ty ver a tx mk ct => exact ⟨ty, rfl⟩

theorem renderTop_some_of_nullFree : ∀ l : List Jv, nullFreeList l = true →
    ∃ ps, renderTop l = some ps := by
  intro l
  induction l with
  | nil => intro _; exact ⟨[], rfl⟩
  | cons x t ih =>
    intro h
    rw [nullFreeList, List.all_cons, Bool.and_eq_true] at h
    obtain ⟨ps, hps⟩ := ih h.2
    obtain ⟨ty, hty⟩ := typeAccess_of_notNull h.1
    refine ⟨(if ty = some "paragraph" ∨ ty = some "heading" then extractNode x ++ "\n"
      else if ty = some "bulletList" then extractNode x else extractNode x) :: ps, ?_⟩
    simp only [renderTop, hty, hps]

theorem renderTop_none_of_null : ∀ l : List Jv, nullFreeList l = false →
    renderTop l = none := by
  intro l
  induction l with
  | nil => intro h; simp [nullFreeList] at h
  | cons x t ih =>
    intro h
    rw [nullFreeList, List.all_cons, Bool.and_eq_false_iff] at h
    rcases h with hx | ht
    · cases x with
      | jnull => rfl
      | jbool b => simp [notNull] at hx
      | jnum n => simp [notNull] at hx
      | jstr s => simp [notNull] at hx
      | jobj ty ver a tx mk ct => simp [notNull] at hx
    · simp only [renderTop, ih ht]
      cases typeAccess x <;> rfl

theorem extractTextFromAdf_jobj_some (ty : Option String) (ver : Option Nat)
    (a : Option Attrs) (tx : Option String) (mk : Option (List Jv)) (l : List Jv) :
    extractTextFromAdf (Jv.jobj ty ver a tx mk (some l)) =
      (match renderTop l with
       | none => ExtractResult.thrown
       | some pieces => ExtractResult.str (jsTrim (jsConcat pieces))) := rfl

/-- Counterexample to claim C10 as stated: this argument is an object carrying
a content sequence, yet the extractor does not return a string on it (the
top-level loop reads the type property of the nullish element and throws). -/
theorem c10_content_iff_string_counterexample :
    contentField (Jv.jobj none none none none none (some [Jv.jnull])) = some [Jv.jnull] ∧
    ExtractResult.isStr
      (extractTextFromAdf (Jv.jobj none none none none none (some [Jv.jnull]))) = false :=
  ⟨rfl, rfl⟩

/-- Claim C10 as amended: extractTextFromAdf returns undefined exactly on
arguments that are not objects carrying a content list; on an object with a
content list it returns a (possibly empty) string when no top-level element is
nullish, and throws a TypeError when one is. -/
theorem c10_undef_str_characterization (v : Jv) :
    (contentField v = none → extractTextFromAdf v = .undefinedResult) ∧
    (∀ l, contentField v = some l → nullFreeList l = true →
      ∃ s, extractTextFromAdf v = .str s) ∧
    (∀ l, contentField v = some l → nullFreeList l = false →
      extractTextFromAdf v = .thrown) := by
  cases v with
  | jnull => exact ⟨fun _ => rfl, fun l hl => by simp [contentField] at hl,
      fun l hl => by simp [contentField] at hl⟩
  | jbool b => exact ⟨fun _ => rfl, fun l hl => by simp [contentField] at hl,
      fun l hl => by simp [contentField] at hl⟩
  | jnum n => exact ⟨fun _ => rfl, fun l hl => by simp [contentField] at hl,
      fun l hl => by simp [contentField] at hl⟩
  | jstr s => exact ⟨fun _ => rfl, fun l hl => by simp [contentField] at hl,
      fun l hl => by simp [contentField] at hl⟩
  | jobj ty ver a tx mk ct =>
    cases ct with
    | none =>
      refine ⟨fun _ => rfl, ?_, ?_⟩ <;>
        exact fun l hl => by simp [contentField] at hl
    | some l0 =>
      refine ⟨fun hn => by simp [contentField] at hn, ?_, ?_⟩
      · intro l hl hnf
        have : l = l0 := by simpa [contentField] using hl.symm
        subst this
        obtain ⟨ps, hps⟩ := renderTop_some_of_nullFree l hnf
        exact ⟨jsTrim (jsConcat ps),
          by rw [extractTextFromAdf_jobj_some, hps]⟩
      · intro l hl hnf
        have : l = l0 := by simpa [contentField] using hl.symm
        subst this
        have hn := renderTop_none_of_null l hnf
        rw [extractTextFromAdf_jobj_some, hn]

/-- Witness for the amended C10 at three concrete inputs: a document with one
text child, an object with a nullish content element, and null itself. -/
theorem c10_undef_str_characterization_witness :
    (∃ s, extractTextFromAdf (docNode [textNode "x"]) = .str s) ∧
    extractTextFromAdf (Jv.jobj none none none none none (some [Jv.jnull])) =
      .thrown ∧
    extractTextFromAdf Jv.jnull = .undefinedResult :=
  ⟨(c10_undef_str_characterization (docNode [textNode "x"])).2.1 [textNode "x"] rfl rfl,
   (c10_undef_str_characterization _).2.2 [Jv.jnull] rfl rfl,
   (c10_undef_str_characterization Jv.jnull).1 rfl⟩

theorem matchCode_head_ne (c : Char) (t : List Char) (h : c ≠ backtick) :
    matchCode (c :: t) = none := by
  simp only [matchCode]
  rw [if_neg h]

theorem matchBold_head_ne (c : Char) (t : List Char) (h : c ≠ '*') :
    matchBold (c :: t) = none := by
  cases t with
  | nil => rfl
  | cons b t2 =>
    simp only [matchBold]
    rw [if_neg (fun hand => h hand.1)]

theorem matchLink_head_ne (c : Char) (t : List Char) (h : c ≠ '[') :
    matchLink (c :: t) = none := by
  simp only [matchLink]
  rw [if_neg h]

theorem takeWhile_eq_self {p : Char → Bool} :
    ∀ l : List Char, (∀ x ∈ l, p x = true) → l.takeWhile p = l := by
  intro l
  induction l with
  | nil => intro _; rfl
  | cons c t ih =>
    intro h
    rw [List.takeWhile_cons, h c (by simp), ih (fun x hx => h x (by simp [hx]))]
    rfl

theorem inlineStep_plain (c : Char) (t : List Char)
    (h : ∀ x ∈ c :: t, x ≠ backtick ∧ x ≠ '*' ∧ x ≠ '[') :
    inlineStep (c :: t) = (textNode (String.mk (c :: t)), []) := by
  have hc := h c (by simp)
  have htake : (c :: t).takeWhile (fun x => x ≠ backtick ∧ x ≠ '*' ∧ x ≠ '[') = c :: t :=
    takeWhile_eq_self (c :: t) (fun x hx => decide_eq_true (h x hx))
  unfold inlineStep
  rw [matchCode_head_ne c t hc.1, matchBold_head_ne c t hc.2.1,
    matchLink_head_ne c t hc.2.2]
  simp only [htake]
  rw [if_pos (by simp), List.drop_length]

theorem parseInline_plain (cs : List Char) (hne : cs ≠ [])
    (h : ∀ c ∈ cs, c ≠ backtick ∧ c ≠ '*' ∧ c ≠ '[') :
    parseInline cs = [textNode (String.mk cs)] := by
  cases cs with
  | nil => exact absurd rfl hne
  | cons c t =>
    rw [parseInline_cons, inlineStep_plain c t h]
    rfl

theorem parseInlineContent_plain (l : String) (hne : l ≠ "")
    (h : ∀ c ∈ l.data, c ≠ backtick ∧ c ≠ '*' ∧ c ≠ '[') :
    parseInlineContent l = [textNode l] := by
  unfold parseInlineContent
  rw [parseInline_plain l.data (data_ne_nil hne) h]
  rfl

theorem flush_none {s : MdState} (h : s.currentBulletList = none) :
    flushBulletList s = s := by
  unfold flushBulletList
  rw [h]

theorem nonBlankLine_false {l : String} (h : jsTrim l = "") : nonBlankLine l = false := by
  simp [nonBlankLine, h]

theorem nonBlankLine_true {l : String} (h : ¬ jsTrim l = "") : nonBlankLine l = true := by
  simp [nonBlankLine, h]

theorem c1_fold : ∀ (ls : List String),
    (∀ l ∈ ls, jsTrim l = "" ∨ plainParagraphLine l) →
    ∀ cont cbc lang, (ls.foldl processLine
      { content := cont, inCodeBlock := false, codeBlockContent := cbc,
        codeBlockLang := lang, currentBulletList := none }) =
      { content := cont ++ (ls.filter nonBlankLine).map
          (fun l => paragraphNode [textNode l]),
        inCodeBlock := false, codeBlockContent := cbc, codeBlockLang := lang,
        currentBulletList := none } := by
  intro ls
  induction ls with
  | nil => intro _ cont cbc lang; simp
  | cons l t ih =>
    intro h cont cbc lang
    rcases h l (by simp) with hb | hp
    · rw [List.foldl_cons, processLine_blank _ l rfl hb, flush_none rfl]
      rw [ih (fun x hx => h x (by simp [hx])) cont cbc lang]
      rw [List.filter_cons, nonBlankLine_false hb]
      simp
    · have hlne : l ≠ "" := fun he => hp.1 (by rw [he]; rfl)
      rw [List.foldl_cons, processLine_para _ l hp.2.1 rfl hp.1 hp.2.2.1 hp.2.2.2.1,
        flush_none rfl]
      rw [show ({ content := cont, inCodeBlock := false, codeBlockContent := cbc, codeBlockLang := lang, currentBulletList := none } : MdState).content = cont from rfl]
      rw [parseInlineContent_plain l hlne hp.2.2.2.2]
      rw [show ({ ({ content := cont, inCodeBlock := false, codeBlockContent := cbc, codeBlockLang := lang, currentBulletList := none } : MdState) with content := cont ++ [paragraphNode [textNode l]] } : MdState) = { content := cont ++ [paragraphNode [textNode l]], inCodeBlock := false, codeBlockContent := cbc, codeBlockLang := lang, currentBulletList := none } from rfl]
      rw [ih (fun x hx => h x (by simp [hx])) (cont ++ [paragraphNode [textNode l]]) cbc lang]
      rw [List.filter_cons, nonBlankLine_true hp.1]
      simp

theorem extractNode_para_single (t : String) (h : t ≠ "") :
    extractNode (paragraphNode [textNode t]) = t := by
  have htx : (some t).getD "" ≠ "" := by simpa using h
  simp [paragraphNode, textNode, extractNode, extractList, jsConcat, htx,
    strAppend_empty, h]

theorem renderTop_paragraphs : ∀ texts : List String, (∀ t ∈ texts, t ≠ "") →
    renderTop (texts.map (fun t => paragraphNode [textNode t])) =
      some (texts.map (fun t => t ++ "\n")) := by
  intro texts
  induction texts with
  | nil => intro _; rfl
  | cons t rest ih =>
    intro h
    rw [List.map_cons, List.map_cons]
    simp only [renderTop, ih (fun x hx => h x (by simp [hx]))]
    rw [show typeAccess (paragraphNode [textNode t]) = some (some "paragraph") from rfl]
    rw [extractNode_para_single t (h t (by simp))]
    simp

/-- Claim C1: on an input consisting only of blank lines and unadorned
paragraph lines, extracting text from the forward-converted document
reproduces the input up to the spec's whitespace normalization: one trailing
newline per paragraph, blank lines collapsed, and the whole result trimmed. -/
theorem c1_plain_roundtrip (md : String)
    (h : ∀ l ∈ splitLines md, jsTrim l = "" ∨ plainParagraphLine l) :
    extractTextFromAdf (markdownToAdf md) = .str (specNormalize md) := by
  unfold markdownToAdf
  rw [show mdInit = { content := [], inCodeBlock := false, codeBlockContent := [], codeBlockLang := "", currentBulletList := none } from rfl]
  rw [c1_fold (splitLines md) h [] [] ""]
  unfold mdFinish
  rw [flush_none rfl]
  rw [show docNode (([] : List Jv) ++ ((splitLines md).filter nonBlankLine).map (fun l => paragraphNode [textNode l])) = Jv.jobj (some "doc") (some 1) none none none (some (((splitLines md).filter nonBlankLine).map (fun l => paragraphNode [textNode l]))) from by simp [docNode]]
  rw [extractTextFromAdf_jobj_some]
  rw [renderTop_paragraphs _ (fun x hx => by
    have hxb := (List.mem_filter.mp hx).2
    intro he
    rw [he] at hxb
    rw [@nonBlankLine_false "" rfl] at hxb
    exact absurd hxb (by simp))]
  rfl

/-- Witness for C1: two paragraphs separated by a blank line round-trip to
the normalized text. -/
theorem c1_plain_roundtrip_witness :
    extractTextFromAdf (markdownToAdf "hello\n\nworld") =
      .str (specNormalize "hello\n\nworld") :=
  c1_plain_roundtrip "hello\n\nworld" (by decide)

theorem mem_jvNodesList {m : Jv} : ∀ {l : List Jv},
    m ∈ jvNodesList l → ∃ x ∈ l, m ∈ jvNodes x := by
  intro l
  induction l with
  | nil => intro h; simp [jvNodesList] at h
  | cons x xs ih =>
    intro h
    rw [jvNodesList, List.mem_append] at h
    rcases h with h | h
    · exact ⟨x, by simp, h⟩
    · obtain ⟨y, hy, hm⟩ := ih h
      exact ⟨y, by simp [hy], hm⟩

theorem deepGood_textNode (s : String) : deepGood (textNode s) := by
  intro m hm hty
  have hm' : m = textNode s := by
    simpa [textNode, jvNodes, jvNodesList] using hm
  rw [hm', textNode] at hty
  simp [jvType] at hty

theorem deepGood_markedTextNode (s : String) (m : Jv)
    (hm : m = codeMark ∨ m = strongMark ∨ ∃ h, m = linkMark h) :
    deepGood (markedTextNode s m) := by
  rcases hm with rfl | rfl | ⟨h, rfl⟩ <;>
  · intro x hx hty
    simp only [markedTextNode, codeMark, strongMark, linkMark, jvNodes, jvNodesList,
      List.append_nil, List.nil_append, List.mem_cons, List.not_mem_nil, or_false] at hx
    rcases hx with rfl | rfl <;> simp [jvType] at hty

theorem inlineStep_node_shape (c : Char) (t : List Char) :
    (∃ s, (inlineStep (c :: t)).1 = textNode s) ∨
    (∃ s, (inlineStep (c :: t)).1 = markedTextNode s codeMark) ∨
    (∃ s, (inlineStep (c :: t)).1 = markedTextNode s strongMark) ∨
    (∃ s h, (inlineStep (c :: t)).1 = markedTextNode s (linkMark h)) := by
  unfold inlineStep
  split
  · exact Or.inr (Or.inl ⟨_, rfl⟩)
  · split
    · exact Or.inr (Or.inr (Or.inl ⟨_, rfl⟩))
    · split
      · exact Or.inr (Or.inr (Or.inr ⟨_, _, rfl⟩))
      · dsimp only
        split
        · exact Or.inl ⟨_, rfl⟩
        · exact Or.inl ⟨_, rfl⟩

theorem deepGood_inlineStep (c : Char) (t : List Char) :
    deepGood (inlineStep (c :: t)).1 := by
  rcases inlineStep_node_shape c t with ⟨s, hs⟩ | ⟨s, hs⟩ | ⟨s, hs⟩ | ⟨s, h, hs⟩ <;>
    rw [hs]
  · exact deepGood_textNode s
  · exact deepGood_markedTextNode s _ (Or.inl rfl)
  · exact deepGood_markedTextNode s _ (Or.inr (Or.inl rfl))
  · exact deepGood_markedTextNode s _ (Or.inr (Or.inr ⟨h, rfl⟩))

theorem deepGood_parseInline_aux : ∀ (k : Nat) (cs : List Char), cs.length ≤ k →
    ∀ n ∈ parseInline cs, deepGood n := by
  intro k
  induction k with
  | zero =>
    intro cs hk n hn
    have : cs = [] := by
      cases cs with
      | nil => rfl
      | cons c t => simp at hk
    rw [this] at hn
    simp [parseInline, parseInlineLoop] at hn
  | succ k ih =>
    intro cs hk n hn
    cases cs with
    | nil => simp [parseInline, parseInlineLoop] at hn
    | cons c t =>
      rw [parseInline_cons] at hn
      rcases List.mem_cons.mp hn with hn | hn
      · rw [hn]
        exact deepGood_inlineStep c t
      · have hlt := inlineStep_rest_lt c t
        exact ih (inlineStep (c :: t)).2
          (by simp only [List.length_cons] at hlt hk ⊢; omega) n hn

theorem deepGood_parseInlineContent (s : String) :
    ∀ n ∈ parseInlineContent s, deepGood n := by
  intro n hn
  unfold parseInlineContent at hn
  by_cases h : (parseInline s.data).length > 0
  · rw [if_pos h] at hn
    exact deepGood_parseInline_aux s.data.length s.data (le_refl _) n hn
  · rw [if_neg h] at hn
    have : n = textNode " " := by simpa using hn
    rw [this]
    exact deepGood_textNode " "

theorem deepGood_of_children {ty : Option String} {ver : Option Nat} {a : Option Attrs}
    {tx : Option String} (l : List Jv) (hty : ty ≠ some "bulletList")
    (h : ∀ n ∈ l, deepGood n) : deepGood (Jv.jobj ty ver a tx none (some l)) := by
  intro m hm hmty
  simp only [jvNodes, List.append_nil, List.mem_cons] at hm
  rcases hm with rfl | hm
  · exact absurd hmty (by simpa [jvType] using hty)
  · obtain ⟨x, hx, hmx⟩ := mem_jvNodesList hm
    exact h x hx m hmx hmty

theorem deepGood_headingNode (lvl : Nat) (rest : String) :
    deepGood (headingNode lvl [textNode rest]) :=
  deepGood_of_children _ (by simp) (fun n hn => by
    have : n = textNode rest := by simpa using hn
    rw [this]
    exact deepGood_textNode rest)

theorem deepGood_codeBlockNode (lang payload : String) :
    deepGood (codeBlockNode lang payload) :=
  deepGood_of_children _ (by simp) (fun n hn => by
    have : n = textNode payload := by simpa using hn
    rw [this]
    exact deepGood_textNode payload)

theorem deepGood_paragraphNode (l : List Jv) (h : ∀ n ∈ l, deepGood n) :
    deepGood (paragraphNode l) :=
  deepGood_of_children l (by simp) h

theorem deepGood_listItemNode (r : String) :
    deepGood (listItemNode [paragraphNode (parseInlineContent r)]) :=
  deepGood_of_children _ (by simp) (fun n hn => by
    have : n = paragraphNode (parseInlineContent r) := by simpa using hn
    rw [this]
    exact deepGood_paragraphNode _ (deepGood_parseInlineContent r))

theorem deepGood_bulletListNode (items : List Jv) (hne : items ≠ [])
    (hall : ∀ i ∈ items, deepGood i) (htys : ∀ i ∈ items, jvType i = some "listItem") :
    deepGood (bulletListNode items) := by
  intro m hm hmty
  simp only [bulletListNode, jvNodes, List.append_nil, List.mem_cons] at hm
  rcases hm with rfl | hm
  · exact ⟨items, rfl, hne, htys⟩
  · obtain ⟨x, hx, hmx⟩ := mem_jvNodesList hm
    exact hall x hx m hmx hmty

theorem invGood_flush {s : MdState} (h : invGood s) : invGood (flushBulletList s) := by
  obtain ⟨h1, h2⟩ := h
  cases hc : s.currentBulletList with
  | none =>
    rw [flush_none hc]
    exact ⟨h1, h2⟩
  | some l =>
    by_cases hl : l.length > 0
    · have heq : flushBulletList s =
          { s with content := s.content ++ [bulletListNode l], currentBulletList := none } := by
        unfold flushBulletList
        rw [hc]
        simp [hl]
      rw [heq]
      constructor
      · intro n hn
        rcases List.mem_append.mp hn with hn | hn
        · exact h1 n hn
        · have : n = bulletListNode l := by simpa using hn
          rw [this]
          refine deepGood_bulletListNode l ?_ (fun i hi => (h2 l hc i hi).1)
            (fun i hi => (h2 l hc i hi).2)
          intro he
          rw [he] at hl
          simp at hl
      · intro l2 hl2
        simp at hl2
    · have heq : flushBulletList s = s := by
        unfold flushBulletList
        rw [hc]
        simp [hl]
      rw [heq]
      exact ⟨h1, h2⟩

theorem invGood_processLine (s : MdState) (line : String) (h : invGood s) :
    invGood (processLine s line) := by
  by_cases hf : jsStartsWith line "```" = true
  · cases hcode : s.inCodeBlock
    · rw [processLine_fence_open s line hf hcode]
      exact ⟨(invGood_flush h).1, (invGood_flush h).2⟩
    · rw [processLine_fence_close s line hf hcode]
      refine ⟨?_, (invGood_flush h).2⟩
      intro n hn
      rcases List.mem_append.mp hn with hn | hn
      · exact (invGood_flush h).1 n hn
      · have : n = codeBlockNode (if s.codeBlockLang = "" then "text" else s.codeBlockLang)
            (jsJoinNl s.codeBlockContent) := by simpa using hn
        rw [this]
        exact deepGood_codeBlockNode _ _
  · simp only [Bool.not_eq_true] at hf
    cases hcode : s.inCodeBlock
    · by_cases hb : jsTrim line = ""
      · rw [processLine_blank s line hcode hb]
        exact invGood_flush h
      · cases hh : headingMatch line with
        | some p =>
          rw [processLine_heading s line p.1 p.2 hf hcode hb (by rw [hh])]
          refine ⟨?_, (invGood_flush h).2⟩
          intro n hn
          rcases List.mem_append.mp hn with hn | hn
          · exact (invGood_flush h).1 n hn
          · have : n = headingNode p.1 [textNode p.2] := by simpa using hn
            rw [this]
            exact deepGood_headingNode p.1 p.2
        | none =>
          cases hm : bulletMatch line with
          | some r =>
            rw [processLine_bullet s line r hf hcode hb hh hm]
            refine ⟨h.1, ?_⟩
            intro l2 hl2
            have hl2' : l2 = (s.currentBulletList.getD []) ++
                [listItemNode [paragraphNode (parseInlineContent r)]] := by
              simpa using hl2.symm
            rw [hl2']
            intro n hn
            rcases List.mem_append.mp hn with hn | hn
            · cases hcb : s.currentBulletList with
              | none =>
                rw [hcb] at hn
                simp at hn
              | some l0 =>
                rw [hcb] at hn
                exact h.2 l0 hcb n hn
            · have : n = listItemNode [paragraphNode (parseInlineContent r)] := by
                simpa using hn
              rw [this]
              exact ⟨deepGood_listItemNode r, rfl⟩
          | none =>
            rw [processLine_para s line hf hcode hb hh hm]
            refine ⟨?_, (invGood_flush h).2⟩
            intro n hn
            rcases List.mem_append.mp hn with hn | hn
            · exact (invGood_flush h).1 n hn
            · have : n = paragraphNode (parseInlineContent line) := by simpa using hn
              rw [this]
              exact deepGood_paragraphNode _ (deepGood_parseInlineContent line)
    · rw [processLine_inCode s line hf hcode]
      exact ⟨h.1, h.2⟩

theorem invGood_foldl : ∀ (ls : List String) (s : MdState), invGood s →
    invGood (ls.foldl processLine s) := by
  intro ls
  induction ls with
  | nil => intro s h; exact h
  | cons l t ih =>
    intro s h
    rw [List.foldl_cons]
    exact ih _ (invGood_processLine s l h)

theorem c4_deep_invariant (md : String) :
    ∀ n ∈ jvNodes (markdownToAdf md), jvType n = some "bulletList" →
      ∃ items, contentField n = some items ∧ items ≠ [] ∧
        ∀ i ∈ items, jvType i = some "listItem" := by
  intro n hn hty
  have hinv : invGood ((splitLines md).foldl processLine mdInit) :=
    invGood_foldl _ _ ⟨by intro x hx; simp [mdInit] at hx,
      by intro l hl; simp [mdInit] at hl⟩
  have hfl := invGood_flush hinv
  unfold markdownToAdf mdFinish at hn
  simp only [docNode, jvNodes, List.append_nil, List.mem_cons] at hn
  rcases hn with rfl | hn
  · simp [jvType] at hty
  · obtain ⟨x, hx, hmx⟩ := mem_jvNodesList hn
    exact hfl.1 x hx n hmx hty

theorem dashData (r : String) : ("- " ++ r).data = '-' :: ' ' :: r.data := by
  rw [String.data_append]; rfl

theorem jsSlice_dash (r : String) : jsSlice ("- " ++ r) 2 = r := by
  refine String.ext ?_
  simp [jsSlice, dashData]

theorem bulletMatch_dash (r : String) (h1 : r ≠ "")
    (h2 : ∀ c ∈ r.data, isLineTerm c = false) :
    bulletMatch ("- " ++ r) = some r := by
  unfold bulletMatch
  rw [if_pos ⟨Or.inl (jsStartsWith_append "- " r),
    by rw [jsSlice_dash]; exact data_ne_nil h1,
    by rw [jsSlice_dash]; exact allNotTerm h2⟩, jsSlice_dash]

theorem headingMatch_dash (r : String) : headingMatch ("- " ++ r) = none := by
  have hd := dashData r
  have h1 : jsStartsWith ("- " ++ r) "# " = false := by
    unfold jsStartsWith
    rw [hd, show ("# " : String).data = '#' :: [' '] from rfl]
    exact leadsWith_cons_ne _ _ (by decide)
  have h2 : jsStartsWith ("- " ++ r) "## " = false := by
    unfold jsStartsWith
    rw [hd, show ("## " : String).data = '#' :: ['#', ' '] from rfl]
    exact leadsWith_cons_ne _ _ (by decide)
  have h3 : jsStartsWith ("- " ++ r) "### " = false := by
    unfold jsStartsWith
    rw [hd, show ("### " : String).data = '#' :: ['#', '#', ' '] from rfl]
    exact leadsWith_cons_ne _ _ (by decide)
  unfold headingMatch
  rw [if_neg (fun hc => by rw [h1] at hc; exact absurd hc.1 (by simp)),
    if_neg (fun hc => by rw [h2] at hc; exact absurd hc.1 (by simp)),
    if_neg (fun hc => by rw [h3] at hc; exact absurd hc.1 (by simp))]

theorem processLine_bullet_dash (s : MdState) (r : String)
    (hcode : s.inCodeBlock = false) (h1 : r ≠ "")
    (h2 : ∀ c ∈ r.data, isLineTerm c = false) :
    processLine s ("- " ++ r) =
      { s with currentBulletList := some ((s.currentBulletList.getD []) ++ [listItemNode [paragraphNode (parseInlineContent r)]]) } :=
  processLine_bullet s _ r (fence_no_lead_pound _ '-' _ (dashData r) (by decide)) hcode
    (@jsTrim_ne_empty ("- " ++ r) '-' (by rw [dashData]; simp) (by decide))
    (headingMatch_dash r) (bulletMatch_dash r h1 h2)

theorem foldl_bullets_aux : ∀ (rests : List String) (s : MdState) (items : List Jv),
    s.inCodeBlock = false → s.currentBulletList = some items →
    (∀ r ∈ rests, r ≠ "" ∧ ∀ c ∈ String.data r, isLineTerm c = false) →
    (rests.map (fun r => "- " ++ r)).foldl processLine s =
      { s with currentBulletList := some (items ++ rests.map (fun r =>
        listItemNode [paragraphNode (parseInlineContent r)])) } := by
  intro rests
  induction rests with
  | nil =>
    intro s items hcode hcb _
    simp only [List.map_nil, List.foldl_nil, List.append_nil]
    rw [← hcb]
  | cons r t ih =>
    intro s items hcode hcb hall
    rw [List.map_cons, List.foldl_cons,
      processLine_bullet_dash s r hcode (hall r (by simp)).1 (hall r (by simp)).2]
    have hgd : (s.currentBulletList.getD []) = items := by rw [hcb]; rfl
    rw [hgd]
    rw [ih { s with currentBulletList := some (items ++ [listItemNode [paragraphNode (parseInlineContent r)]]) }
      (items ++ [listItemNode [paragraphNode (parseInlineContent r)]]) hcode rfl
      (fun x hx => hall x (by simp [hx]))]
    simp [List.append_assoc]

theorem c4_bullet_run (rests : List String) (hne : rests ≠ [])
    (hall : ∀ r ∈ rests, r ≠ "" ∧ ∀ c ∈ String.data r, isLineTerm c = false) :
    markdownToAdf (jsJoinNl (rests.map (fun r => "- " ++ r))) =
      docNode [bulletListNode (rests.map (fun r =>
        listItemNode [paragraphNode (parseInlineContent r)]))] := by
  have hnl : ∀ l ∈ rests.map (fun r => "- " ++ r), ∀ c ∈ String.data l, c ≠ '\n' := by
    intro l hl
    obtain ⟨r0, hr0, rfl⟩ := List.mem_map.mp hl
    intro c hc
    rw [dashData] at hc
    rcases List.mem_cons.mp hc with rfl | hc
    · decide
    · rcases List.mem_cons.mp hc with rfl | hc
      · decide
      · intro he
        subst he
        have := (hall r0 hr0).2 '\n' hc
        rw [newline_isLineTerm] at this
        exact absurd this (by simp)
  cases rests with
  | nil => exact absurd rfl hne
  | cons r t =>
    unfold markdownToAdf
    rw [splitLines_jsJoinNl _ (by simp) hnl]
    rw [List.map_cons, List.foldl_cons,
      processLine_bullet_dash mdInit r rfl (hall r (by simp)).1 (hall r (by simp)).2]
    rw [show ({ mdInit with currentBulletList := some (((mdInit.currentBulletList).getD []) ++ [listItemNode [paragraphNode (parseInlineContent r)]]) } : MdState) = { content := [], inCodeBlock := false, codeBlockContent := [], codeBlockLang := "", currentBulletList := some [listItemNode [paragraphNode (parseInlineContent r)]] } from rfl]
    rw [foldl_bullets_aux t _ [listItemNode [paragraphNode (parseInlineContent r)]] rfl rfl
      (fun x hx => hall x (by simp [hx]))]
    unfold mdFinish flushBulletList
    simp

theorem processLine_flush_first (s : MdState) (term : String)
    (hcode : s.inCodeBlock = false) (hm : bulletMatch term = none) :
    processLine s term = processLine (flushBulletList s) term := by
  have hcode2 : (flushBulletList s).inCodeBlock = false := by
    rw [flushBulletList_inCodeBlock]
    exact hcode
  by_cases hf : jsStartsWith term "```" = true
  · rw [processLine_fence_open s term hf hcode,
      processLine_fence_open (flushBulletList s) term hf hcode2, flushBulletList_idem]
  · simp only [Bool.not_eq_true] at hf
    by_cases hb : jsTrim term = ""
    · rw [processLine_blank s term hcode hb,
        processLine_blank (flushBulletList s) term hcode2 hb, flushBulletList_idem]
    · cases hh : headingMatch term with
      | some p =>
        rw [processLine_heading s term p.1 p.2 hf hcode hb (by rw [hh]),
          processLine_heading (flushBulletList s) term p.1 p.2 hf hcode2 hb (by rw [hh]),
          flushBulletList_idem]
      | none =>
        rw [processLine_para s term hf hcode hb hh hm,
          processLine_para (flushBulletList s) term hf hcode2 hb hh hm,
          flushBulletList_idem]

/-- Claim C4: bullet list accumulation invariants.  Every bullet list node in
any output document holds a non-empty list of list items; a maximal run of
consecutive bullet lines converts to exactly one bullet list holding exactly
those items; any non-bullet line processed outside a fence first flushes the
accumulating list (so blank lines, headings, fence openers and paragraphs all
terminate it); and the spec's example produces one two-item list followed by
one paragraph. -/
theorem c4_bullet_accumulation :
    (∀ md : String, ∀ n ∈ jvNodes (markdownToAdf md),
      jvType n = some "bulletList" →
        ∃ items, contentField n = some items ∧ items ≠ [] ∧
          ∀ i ∈ items, jvType i = some "listItem") ∧
    (∀ rests : List String, rests ≠ [] →
      (∀ r ∈ rests, r ≠ "" ∧ ∀ c ∈ String.data r, isLineTerm c = false) →
      markdownToAdf (jsJoinNl (rests.map (fun r => "- " ++ r))) =
        docNode [bulletListNode (rests.map (fun r =>
          listItemNode [paragraphNode (parseInlineContent r)]))]) ∧
    (∀ (s : MdState) (term : String), s.inCodeBlock = false →
      bulletMatch term = none →
      processLine s term = processLine (flushBulletList s) term) ∧
    markdownToAdf "- a\n- b\n\nc" =
      docNode [bulletListNode [listItemNode [paragraphNode [textNode "a"]],
        listItemNode [paragraphNode [textNode "b"]]], paragraphNode [textNode "c"]] :=
  ⟨c4_deep_invariant, c4_bullet_run, processLine_flush_first, rfl⟩

/-- Witness for C4: a two-line bullet run converts to one bullet list with
two items. -/
theorem c4_bullet_accumulation_witness :
    markdownToAdf (jsJoinNl (["a", "b"].map (fun r => "- " ++ r))) =
      docNode [bulletListNode (["a", "b"].map (fun r =>
        listItemNode [paragraphNode (parseInlineContent r)]))] :=
  c4_bullet_accumulation.2.1 ["a", "b"] (by decide) (by decide)

theorem dropWhile_eq_drop (p : Char → Bool) : ∀ t : List Char,
    t.dropWhile p = t.drop (t.takeWhile p).length := by
  intro t
  induction t with
  | nil => rfl
  | cons c r ih =>
    by_cases hc : p c = true
    · simp [List.dropWhile_cons, List.takeWhile_cons, hc, ih]
    · simp only [Bool.not_eq_true] at hc
      simp [List.dropWhile_cons, List.takeWhile_cons, hc]

theorem dropWhile_head_false (p : Char → Bool) : ∀ (t : List Char) (d : Char)
    (rest : List Char), t.dropWhile p = d :: rest → p d = false := by
  intro t
  induction t with
  | nil => intro d rest h; simp at h
  | cons c r ih =>
    intro d rest h
    by_cases hc : p c = true
    · rw [List.dropWhile_cons, if_pos hc] at h
      exact ih d rest h
    · rw [List.dropWhile_cons, if_neg hc] at h
      cases h
      simpa using hc

theorem takeWhile_length_lt (p : Char → Bool) (t : List Char)
    (h : t.dropWhile p ≠ []) : (t.takeWhile p).length < t.length := by
  have h2 : t.takeWhile p ++ t.dropWhile p = t := List.takeWhile_append_dropWhile p t
  have hlen := congrArg List.length h2
  rw [List.length_append] at hlen
  have h3 : 1 ≤ (t.dropWhile p).length := by
    cases hd : t.dropWhile p with
    | nil => exact absurd hd h
    | cons a b => simp
  omega

theorem takeWhile_eq_of_dropWhile_nil (p : Char → Bool) (t : List Char)
    (h : t.dropWhile p = []) : t.takeWhile p = t := by
  have h2 : t.takeWhile p ++ t.dropWhile p = t := List.takeWhile_append_dropWhile p t
  rw [h, List.append_nil] at h2
  exact h2

theorem specCode_eq (cs : List Char) :
    specCode cs = (match matchCode cs with
      | some (i, r) => some (markedTextNode (String.mk i) codeMark, r)
      | none => none) := by
  cases cs with
  | nil => rfl
  | cons c t =>
    by_cases hc : c = backtick
    · simp only [specCode, matchCode, if_pos hc, List.span_eq_take_drop]
      by_cases hi : t.takeWhile (fun x => x ≠ backtick) = []
      · rw [hi]
        rw [if_pos rfl, if_neg (fun hand => hand.1 rfl)]
      · rw [if_neg hi]
        cases hd : t.dropWhile (fun x => x ≠ backtick) with
        | nil =>
          have : ¬ ((t.takeWhile (fun x => x ≠ backtick)).length < t.length) := by
            rw [takeWhile_eq_of_dropWhile_nil _ _ hd] at hi ⊢
            omega
          rw [if_neg (fun hand => this hand.2)]
        | cons d rest =>
          have hdb : d = backtick := by
            have := dropWhile_head_false _ t d rest hd
            simpa using this
          have hlt : (t.takeWhile (fun x => x ≠ backtick)).length < t.length :=
            takeWhile_length_lt _ t (by rw [hd]; simp)
          have hrest : rest = t.drop ((t.takeWhile (fun x => x ≠ backtick)).length + 1) := by
            have h1 : t.drop (t.takeWhile (fun x => x ≠ backtick)).length = d :: rest := by
              rw [← dropWhile_eq_drop]
              exact hd
            have h2 := congrArg List.tail h1
            simp only [List.tail_cons] at h2
            rw [← h2, List.tail_drop]
          dsimp only
          rw [if_pos hdb, hrest, if_pos ⟨hi, hlt⟩]
    · simp only [specCode, matchCode, if_neg hc]

theorem specBold_eq (cs : List Char) :
    specBold cs = (match matchBold cs with
      | some (i, r) => some (markedTextNode (String.mk i) strongMark, r)
      | none => none) := by
  match cs with
  | [] => rfl
  | [a] => rfl
  | a :: b :: t =>
    by_cases hab : a = '*' ∧ b = '*'
    · simp only [specBold, matchBold, if_pos hab, List.span_eq_take_drop]
      by_cases hi : t.takeWhile (fun x => x ≠ '*') = []
      · rw [hi, if_pos rfl, if_neg (fun hand => hand.1 rfl)]
      · rw [if_neg hi]
        cases hd : t.dropWhile (fun x => x ≠ '*') with
        | nil =>
          have hdrop : t.drop (t.takeWhile (fun x => x ≠ '*')).length = [] := by
            rw [← dropWhile_eq_drop]
            exact hd
          rw [hdrop, if_neg (fun hand => absurd hand.2 (by decide))]
        | cons d rest =>
          have hd' : d = '*' := by
            have := dropWhile_head_false _ t d rest hd
            simpa using this
          subst hd'
          have hdrop : t.drop (t.takeWhile (fun x => x ≠ '*')).length = '*' :: rest := by
            rw [← dropWhile_eq_drop]
            exact hd
          cases rest with
          | nil =>
            rw [hdrop, if_neg (fun hand => by
              have h2 := hand.2
              simp [leadsWith] at h2)]
          | cons d2 rest2 =>
            have hdrop2 : t.drop ((t.takeWhile (fun x => x ≠ '*')).length + 2) = rest2 := by
              have h2 := congrArg (List.drop 2) hdrop
              rw [List.drop_drop] at h2
              simpa [Nat.add_comm] using h2
            by_cases hd2 : d2 = '*'
            · subst hd2
              rw [hdrop, if_pos ⟨hi, by simp [leadsWith]⟩, hdrop2]
              dsimp only
              rw [if_pos ⟨rfl, rfl⟩]
            · rw [hdrop, if_neg (fun hand => by
                have h2 := hand.2
                simp [leadsWith] at h2
                exact hd2 h2.symm)]
              dsimp only
              rw [if_neg (fun hand => hd2 hand.2)]
    · simp only [specBold, matchBold, if_neg hab]

theorem specLink_eq (cs : List Char) :
    specLink cs = (match matchLink cs with
      | some (lab, href, r) =>
        some (markedTextNode (String.mk lab) (linkMark (String.mk href)), r)
      | none => none) := by
  cases cs with
  | nil => rfl
  | cons c t =>
    by_cases hc : c = '['
    · simp only [specLink, matchLink, if_pos hc, List.span_eq_take_drop]
      by_cases hl : t.takeWhile (fun x => x ≠ ']') = []
      · rw [hl, if_pos rfl, if_neg (fun hand => hand.1 rfl)]
      · rw [if_neg hl]
        cases hd : t.dropWhile (fun x => x ≠ ']') with
        | nil =>
          have hlen : ¬ ((t.takeWhile (fun x => x ≠ ']')).length < t.length) := by
            rw [takeWhile_eq_of_dropWhile_nil _ _ hd]
            omega
          rw [if_neg (fun hand => hlen hand.2)]
        | cons b1 r1t =>
          have hb1 : b1 = ']' := by
            have := dropWhile_head_false _ t b1 r1t hd
            simpa using this
          subst hb1
          have hdrop : t.drop (t.takeWhile (fun x => x ≠ ']')).length = ']' :: r1t := by
            rw [← dropWhile_eq_drop]
            exact hd
          have hlt : (t.takeWhile (fun x => x ≠ ']')).length < t.length :=
            takeWhile_length_lt _ t (by rw [hd]; simp)
          have hdrop1 : t.drop ((t.takeWhile (fun x => x ≠ ']')).length + 1) = r1t := by
            have h2 := congrArg List.tail hdrop
            simp only [List.tail_cons] at h2
            rw [← h2, List.tail_drop]
          rw [if_pos ⟨hl, hlt⟩, hdrop1]
          cases r1t with
          | nil => rfl
          | cons b2 r2 =>
            by_cases hb2 : b2 = '('
            · subst hb2
              dsimp only
              rw [if_pos (⟨rfl, rfl⟩ : (']' : Char) = ']' ∧ ('(' : Char) = '('),
                if_pos rfl]
              by_cases hh : r2.takeWhile (fun x => x ≠ ')') = []
              · rw [hh, if_pos rfl, if_neg (fun hand => hand.1 rfl)]
              · rw [if_neg hh]
                cases hd3 : r2.dropWhile (fun x => x ≠ ')') with
                | nil =>
                  have hlen3 : ¬ ((r2.takeWhile (fun x => x ≠ ')')).length < r2.length) := by
                    rw [takeWhile_eq_of_dropWhile_nil _ _ hd3]
                    omega
                  rw [if_neg (fun hand => hlen3 hand.2)]
                | cons b3 rest =>
                  have hb3 : b3 = ')' := by
                    have := dropWhile_head_false _ r2 b3 rest hd3
                    simpa using this
                  subst hb3
                  have hlt3 : (r2.takeWhile (fun x => x ≠ ')')).length < r2.length :=
                    takeWhile_length_lt _ r2 (by rw [hd3]; simp)
                  have hdrop3 : r2.drop ((r2.takeWhile (fun x => x ≠ ')')).length + 1) = rest := by
                    have h1 : r2.drop (r2.takeWhile (fun x => x ≠ ')')).length = ')' :: rest := by
                      rw [← dropWhile_eq_drop]
                      exact hd3
                    have h2 := congrArg List.tail h1
                    simp only [List.tail_cons] at h2
                    rw [← h2, List.tail_drop]
                  dsimp only
                  rw [if_pos rfl, if_pos ⟨hh, hlt3⟩, hdrop3]
            · dsimp only
              rw [if_neg (fun hand => hb2 hand.2), if_neg hb2]
    · simp only [specLink, matchLink, if_neg hc]

theorem specPlain_eq (cs : List Char) :
    specPlain cs =
      (if cs.takeWhile (fun x => x ≠ backtick ∧ x ≠ '*' ∧ x ≠ '[') ≠ [] then
        some (textNode (String.mk (cs.takeWhile (fun x => x ≠ backtick ∧ x ≠ '*' ∧ x ≠ '['))),
          cs.drop (cs.takeWhile (fun x => x ≠ backtick ∧ x ≠ '*' ∧ x ≠ '[')).length)
      else none) := by
  unfold specPlain
  rw [List.span_eq_take_drop, dropWhile_eq_drop]
  by_cases h : cs.takeWhile (fun x => x ≠ backtick ∧ x ≠ '*' ∧ x ≠ '[') = []
  · rw [h]
    dsimp only
    rw [if_pos rfl, if_neg (fun hand => hand rfl)]
  · dsimp only
    rw [if_neg h, if_pos h]

theorem specStep_eq (cs : List Char) : specStep cs = inlineStep cs := by
  unfold specStep inlineStep
  rw [specCode_eq, specBold_eq, specLink_eq, specPlain_eq]
  cases matchCode cs with
  | some p =>
    obtain ⟨i, r⟩ := p
    rfl
  | none =>
    cases matchBold cs with
    | some p =>
      obtain ⟨i, r⟩ := p
      rfl
    | none =>
      cases matchLink cs with
      | some p =>
        obtain ⟨lab, href, r⟩ := p
        rfl
      | none =>
        dsimp only
        by_cases h : cs.takeWhile (fun x => x ≠ backtick ∧ x ≠ '*' ∧ x ≠ '[') ≠ []
        · rw [if_pos h, if_pos h]
        · rw [if_neg h, if_neg h]

theorem specScanLoop_eq : ∀ (f : Nat) (cs : List Char),
    specScanLoop f cs = parseInlineLoop f cs := by
  intro f
  induction f with
  | zero => intro cs; cases cs <;> rfl
  | succ f ih =>
    intro cs
    cases cs with
    | nil => rfl
    | cons c t => simp only [specScanLoop, parseInlineLoop, specStep_eq, ih]

/-- Claim C6: parseInlineContent scans strictly left to right checking inline
code, then bold, then link, then a longest plain run, else one literal
character, exactly as the spec-side scanner does; its result is never the
empty sequence; and the empty input yields exactly one single-space text
node. -/
theorem c6_inline_scan_priority :
    (∀ s : String, parseInlineContent s = specInlineScan s) ∧
    (∀ s : String, parseInlineContent s ≠ []) ∧
    parseInlineContent "" = [textNode " "] := by
  refine ⟨?_, ?_, rfl⟩
  · intro s
    unfold parseInlineContent parseInline specInlineScan
    rw [specScanLoop_eq]
    cases hr : parseInlineLoop s.data.length s.data with
    | nil => rfl
    | cons a t => simp
  · intro s
    unfold parseInlineContent
    by_cases h : (parseInline s.data).length > 0
    · rw [if_pos h]
      intro he
      rw [he] at h
      simp at h
    · rw [if_neg h]
      simp
